import Mathlib

/-
Verification of the CSV data-cleaning engine of `actions.py`
(`_clean_value` and `clean_csv_data`).

Modelling conventions:
- A raw cell (pandas read with `dtype=str, keep_default_na=False, na_values=[]`)
  is `Option (List Char)`: `none` is the NaN missing indicator, `some v` a string.
- Cleaned values are `Cell`: the canonical missing marker `Cell.none`,
  Python ints (`Cell.int`, arbitrary precision as in Python), floats modelled
  as exact rationals (`Cell.float`), and strings (`Cell.str`).
- The `astype` conversions for unrecognized target dtypes and the
  `pd.to_datetime` call are pandas-library behaviour, not code of this
  repository; they are abstracted into a `PandasOracle` parameter.  A failing
  conversion is `Option.none` (an exception caught by the code).
-/

set_option maxHeartbeats 1000000

/-- Python `str.isspace` characters relevant to `str.strip`. -/
def pyIsSpace (c : Char) : Bool :=
  c == ' ' || c == '\t' || c == '\n' || c == '\r' || c == '\x0b' || c == '\x0c'

/-- Python `str.strip()`: drop leading and trailing whitespace. -/
def pyStrip (l : List Char) : List Char :=
  ((l.dropWhile pyIsSpace).reverse.dropWhile pyIsSpace).reverse

/-- The characters kept by `re.sub(r"[^0-9\.\-]", "", s)`: digits, dot, minus. -/
def keepNumericChar (c : Char) : Bool :=
  c.isDigit || c == '.' || c == '-'

/-- Value of a list of decimal digit characters. -/
def digitsToNat (l : List Char) : Nat :=
  l.foldl (fun a c => 10 * a + (c.toNat - 48)) 0

/-- Numeric parse of an unsigned numeral over the characters surviving the
numeric filter, as `pd.to_numeric(..., errors="coerce")` accepts them:
digits with at most one decimal point and at least one digit. -/
def parseUnsigned (l : List Char) : Option ℚ :=
  let ip := l.takeWhile (fun c => c != '.')
  let fracPart := l.dropWhile (fun c => c != '.')
  if ip.all Char.isDigit then
    match fracPart with
    | [] => if ip = [] then Option.none else Option.some ((digitsToNat ip : ℚ))
    | _ :: frac =>
      if frac.all Char.isDigit ∧ ¬(ip = [] ∧ frac = []) then
        Option.some ((digitsToNat ip : ℚ) + (digitsToNat frac : ℚ) / (10 : ℚ) ^ frac.length)
      else Option.none
  else Option.none

/-- Numeric parse including one optional leading minus sign. -/
def parseNumeral (l : List Char) : Option ℚ :=
  if l.take 1 = ['-'] then Option.map (fun q => -q) (parseUnsigned (l.drop 1))
  else parseUnsigned l

/-- A cleaned cell value: the canonical missing marker `none` (Python `None`),
a Python int, a float (exact rational model), or a string. -/
inductive Cell where
  | none : Cell
  | int : ℤ → Cell
  | float : ℚ → Cell
  | str : List Char → Cell
deriving DecidableEq

/-- Abstraction of the pandas conversions the code delegates to for
unrecognized target dtypes: per-cell `pd.Series([s]).astype(tag).iloc[0]`,
whole-column `series.astype(tag)`, and `pd.to_datetime(series, errors="coerce")`.
`Option.none` models a raised (and caught) exception.  A pandas column-wise
conversion always yields a series of the same length; that invariant is part
of the model. -/
structure PandasOracle where
  astypeCell : List Char → String → Option Cell
  astypeCol : List Cell → String → Option (List Cell)
  toDatetimeCol : List Cell → List Cell
  astypeCol_length : ∀ cells tag cs, astypeCol cells tag = Option.some cs →
    cs.length = cells.length
  toDatetimeCol_length : ∀ cells, (toDatetimeCol cells).length = cells.length

def numericTags : List String := ["int", "int64", "float", "float64"]

def intTags : List String := ["int", "int64"]

def floatTags : List String := ["float", "float64"]

def strTags : List String := ["str", "string"]

def datetimeTags : List String := ["datetime64[ns]", "datetime"]

/-- Embedding of `_clean_value(value, target_dtype)`.  Returns the cleaned
cell together with a flag recording whether a `logger.warning` diagnostic was
emitted (the code's only side channel). -/
def _clean_value (o : PandasOracle) (value : Option (List Char)) (target_dtype : String) :
    Cell × Bool :=
  match value with
  | Option.none => (Cell.none, false)
  | Option.some v =>
    if v = [] then (Cell.none, false)
    else
      let value_str := pyStrip v
      if value_str = [] then (Cell.none, false)
      else if target_dtype ∈ numericTags then
        let cleaned_str := value_str.filter keepNumericChar
        if cleaned_str = [] ∨ cleaned_str = ['-'] then (Cell.none, false)
        else
          match parseNumeral cleaned_str with
          | Option.none => (Cell.none, false)
          | Option.some q =>
            if target_dtype ∈ intTags then
              if q.den = 1 then (Cell.int q.num, false) else (Cell.float q, true)
            else (Cell.float q, false)
      else if target_dtype ∈ strTags then (Cell.str value_str, false)
      else
        match o.astypeCell value_str target_dtype with
        | Option.some c => (c, false)
        | Option.none => (Cell.str value_str, true)

/-- `pd.to_numeric(series, errors="coerce")` applied cellwise: missing stays
missing, numbers pass through, a string is parsed or coerced to missing.
(In numeric-target columns string cells never occur.) -/
def toNumericCoerce (c : Cell) : Cell :=
  match c with
  | Cell.str s =>
    match parseNumeral s with
    | Option.some q => Cell.float q
    | Option.none => Cell.none
  | c => c

/-- A float cell with a nonzero fractional part (the one shape
`astype("Int64")` cannot safely cast). -/
def isFracFloat (c : Cell) : Bool :=
  match c with
  | Cell.float q => decide (q.den ≠ 1)
  | _ => false

/-- Column finalization for int targets:
`pd.to_numeric(series, errors="coerce").astype("Int64")`.  `astype("Int64")`
raises on a float with a fractional part; otherwise whole floats become
integers and missing stays missing. -/
def finalizeIntCol (cells : List Cell) : Except String (List Cell) :=
  let nums := cells.map toNumericCoerce
  if nums.any isFracFloat then
    Except.error "cannot safely cast non-equivalent float64 to int64"
  else
    Except.ok (nums.map (fun c =>
      match c with
      | Cell.float q => Cell.int q.num
      | c => c))

/-- Column finalization for float targets:
`pd.to_numeric(series, errors="coerce").astype("float64")`. -/
def finalizeFloatCol (cells : List Cell) : List Cell :=
  cells.map (fun c =>
    match toNumericCoerce c with
    | Cell.int n => Cell.float (n : ℚ)
    | c => c)

/-- Fuel-driven accumulator loop producing the decimal digits of `n`. -/
def natToDigitsAux (fuel : Nat) (n : Nat) (acc : List Char) : List Char :=
  match fuel with
  | 0 => acc
  | fuel + 1 =>
    if n < 10 then Nat.digitChar n :: acc
    else natToDigitsAux fuel (n / 10) (Nat.digitChar (n % 10) :: acc)

/-- Decimal digit characters of `n`, most significant first (Python `str`). -/
def natToDigits (n : Nat) : List Char :=
  natToDigitsAux (n + 1) n []

/-- Python `str` of an int. -/
def reprInt (n : ℤ) : List Char :=
  if n < 0 then '-' :: natToDigits n.natAbs else natToDigits n.natAbs

/-- Least exponent `k` with `d ∣ 10 ^ k`, when one exists. -/
def decExp (d : Nat) : Option Nat :=
  (List.range (d + 1)).find? (fun k => 10 ^ k % d == 0)

/-- Left-pad a digit string with zeros to length `k`. -/
def padZero (k : Nat) (l : List Char) : List Char :=
  List.replicate (k - l.length) '0' ++ l

/-- Python `repr` of a float whose value is an exact decimal: the shortest
decimal expansion, with at least one digit on each side of the point. -/
def reprQ (q : ℚ) : List Char :=
  let body :=
    match decExp q.den with
    | Option.some k =>
      if k = 0 then natToDigits q.num.natAbs ++ ['.', '0']
      else
        let m := q.num.natAbs * (10 ^ k / q.den)
        natToDigits (m / 10 ^ k) ++ '.' :: padZero k (natToDigits (m % 10 ^ k))
    | Option.none => []
  if q.num < 0 then '-' :: body else body

/-- `astype("string")` applied cellwise: missing stays missing, everything
else becomes its textual form.  (In string-target columns only missing and
string cells occur.) -/
def astypeStringCell (c : Cell) : Cell :=
  match c with
  | Cell.none => Cell.none
  | Cell.str s => Cell.str s
  | Cell.int n => Cell.str (reprInt n)
  | Cell.float q => Cell.str (reprQ q)

/-- Column finalization for string targets: `series.astype("string")`. -/
def finalizeStrCol (cells : List Cell) : List Cell :=
  cells.map astypeStringCell

/-- Column finalization for other target tags: `pd.to_datetime` for the two
datetime tags, otherwise `series.astype(tag)` with the exception caught and
the per-cell cleaned column kept as is. -/
def finalizeOtherCol (o : PandasOracle) (tag : String) (cells : List Cell) : List Cell :=
  if tag ∈ datetimeTags then o.toDatetimeCol cells
  else
    match o.astypeCol cells tag with
    | Option.some cs => cs
    | Option.none => cells

/-- `dtypes.get(column_name)` combined with the `if target_dtype:` truthiness
test: a missing entry and an empty-string tag both mean "no target". -/
def colTarget (dtypes : List (String × String)) (name : String) : Option String :=
  match dtypes.lookup name with
  | Option.some t => if t = "" then Option.none else Option.some t
  | Option.none => Option.none

/-- The no-dtype branch: `raw[col].str.strip().astype("string")` cellwise. -/
def stripOnlyCell (x : Option (List Char)) : Cell :=
  match x with
  | Option.none => Cell.none
  | Option.some v => Cell.str (pyStrip v)

/-- Processing of one column of `clean_csv_data`: per-cell cleaning with
`_clean_value` followed by the column-level finalization branch. -/
def cleanColumn (o : PandasOracle) (dtypes : List (String × String)) (name : String)
    (raw : List (Option (List Char))) : Except String (List Cell) :=
  match colTarget dtypes name with
  | Option.some target_dtype =>
    let cleaned := raw.map (fun x => (_clean_value o x target_dtype).1)
    if target_dtype ∈ intTags then finalizeIntCol cleaned
    else if target_dtype ∈ floatTags then Except.ok (finalizeFloatCol cleaned)
    else if target_dtype ∈ strTags then Except.ok (finalizeStrCol cleaned)
    else Except.ok (finalizeOtherCol o target_dtype cleaned)
  | Option.none => Except.ok (raw.map stripOnlyCell)

/-- A raw table as read by `pd.read_csv(..., dtype=str)`: named columns in
header order, each an equal-length list of textual-or-missing cells. -/
structure RawTable where
  cols : List (String × List (Option (List Char)))

/-- The column loop of `clean_csv_data`, in header order; the first uncaught
column error aborts the call (it propagates to the outer handler). -/
def cleanColumns (o : PandasOracle) (dtypes : List (String × String)) :
    List (String × List (Option (List Char))) → Except String (List (String × List Cell))
  | [] => Except.ok []
  | p :: rest =>
    match cleanColumn o dtypes p.1 p.2 with
    | Except.error e => Except.error e
    | Except.ok c =>
      match cleanColumns o dtypes rest with
      | Except.error e => Except.error e
      | Except.ok cs => Except.ok ((p.1, c) :: cs)

/-- `cleaned_dataframe.to_dict(orient="records")` followed by the NA→None
sweep: one record per row, keys in column order.  (Missing cells are already
the canonical `Cell.none` in this model, so the sweep is the identity.) -/
def toRecords (cs : List (String × List Cell)) : List (List (String × Cell)) :=
  match cs with
  | [] => []
  | p :: _ =>
    (List.range p.2.length).map (fun i => cs.map (fun col => (col.1, col.2.getD i Cell.none)))

/-- Embedding of `clean_csv_data` from the in-memory raw table on: clean every
column, then serialize to records.  `Except.error` is the caught-at-boundary
error result (the returned error dictionary). -/
def clean_csv_data (o : PandasOracle) (t : RawTable) (dtypes : List (String × String)) :
    Except String (List (List (String × Cell))) :=
  match cleanColumns o dtypes t.cols with
  | Except.ok cs => Except.ok (toRecords cs)
  | Except.error e => Except.error e

/-- Whether an `Except` result is a success. -/
def exceptOk {ε α : Type} (x : Except ε α) : Bool :=
  match x with
  | Except.ok _ => true
  | Except.error _ => false

/-- A concrete oracle whose conversions all fail (and whose datetime
coercion sends everything to missing), for closed instances. -/
def trivOracle : PandasOracle :=
  ⟨fun _ _ => Option.none, fun _ _ => Option.none, fun cells => cells.map (fun _ => Cell.none),
   fun _ _ _ h => Option.noConfusion h, fun cells => cells.length_map _⟩

/-- Re-expression of a cleaned cell as text (missing stays missing). -/
def cellToText (c : Cell) : Option (List Char) :=
  match c with
  | Cell.none => Option.none
  | Cell.int n => Option.some (reprInt n)
  | Cell.float q => Option.some (reprQ q)
  | Cell.str s => Option.some s

/-- A cleaned table re-expressed as a raw (textual) table. -/
def reExpressCols (cs : List (String × List Cell)) : List (String × List (Option (List Char))) :=
  cs.map (fun p => (p.1, p.2.map cellToText))

/-- The type specification giving every column its finalized type: its own
tag when specified, `"string"` otherwise. -/
def finalizedSpec (dtypes : List (String × String)) (names : List String) :
    List (String × String) :=
  names.map (fun n => (n, (colTarget dtypes n).getD "string"))

/-- The column's target, if any, lies in the int/float/string families. -/
def tagFamilyOk (dtypes : List (String × String)) (name : String) : Bool :=
  match colTarget dtypes name with
  | Option.some tag => decide (tag ∈ numericTags ∨ tag ∈ strTags)
  | Option.none => true

/-- An unspecified column contains no empty-string cell. -/
def noEmptyStrCell (dtypes : List (String × String)) (p : String × List Cell) : Bool :=
  match colTarget dtypes p.1 with
  | Option.none => decide (Cell.str [] ∉ p.2)
  | Option.some _ => true

/-- The column has an int target and some cell cleans to a fractional float. -/
def colHasBadInt (o : PandasOracle) (dtypes : List (String × String))
    (p : String × List (Option (List Char))) : Bool :=
  match colTarget dtypes p.1 with
  | Option.some tag =>
    decide (tag ∈ intTags) && p.2.any (fun x => isFracFloat (_clean_value o x tag).1)
  | Option.none => false

/-- `pat` occurs at the start of the second list. -/
def startsWithSeq : List Char → List Char → Bool
  | [], _ => true
  | _ :: _, [] => false
  | a :: as, b :: bs => a == b && startsWithSeq as bs

/-- `pat` occurs contiguously somewhere in the second list. -/
def containsSeq (pat : List Char) : List Char → Bool
  | [] => pat.isEmpty
  | s@(_ :: rest) => startsWithSeq pat s || containsSeq pat rest

/-- The shape every output cell must have for its column, per the (amended)
output invariant: typed-or-missing for int/float/string targets (string cells
nonempty there), missing-or-string for unspecified columns (possibly the
empty string), unconstrained for other-passthrough tags. -/
def cellOkFor (dtypes : List (String × String)) (name : String) (c : Cell) : Prop :=
  match colTarget dtypes name with
  | Option.some tag =>
    (tag ∈ intTags → c = Cell.none ∨ ∃ n, c = Cell.int n) ∧
    (tag ∈ floatTags → c = Cell.none ∨ ∃ q, c = Cell.float q) ∧
    (tag ∈ strTags → c = Cell.none ∨ ∃ s, c = Cell.str s ∧ s ≠ [])
  | Option.none => c = Cell.none ∨ ∃ s, c = Cell.str s

/-! ### Basic facts about the tag families -/

theorem mem_intTags_mem_numericTags {t : String} (h : t ∈ intTags) : t ∈ numericTags := by
  simp only [intTags, List.mem_cons, List.not_mem_nil, or_false] at h
  rcases h with rfl | rfl <;> simp [numericTags]

theorem mem_floatTags_mem_numericTags {t : String} (h : t ∈ floatTags) : t ∈ numericTags := by
  simp only [floatTags, List.mem_cons, List.not_mem_nil, or_false] at h
  rcases h with rfl | rfl <;> simp [numericTags]

theorem strTags_not_numeric {t : String} (h : t ∈ strTags) : t ∉ numericTags := by
  simp only [strTags, List.mem_cons, List.not_mem_nil, or_false] at h
  rcases h with rfl | rfl <;> simp [numericTags]

/-! ### Unfolding `_clean_value` -/

theorem clean_value_none (o : PandasOracle) (t : String) :
    _clean_value o Option.none t = (Cell.none, false) := rfl

theorem clean_value_strip_nil (o : PandasOracle) (t : String) (v : List Char)
    (hv : pyStrip v = []) : _clean_value o (Option.some v) t = (Cell.none, false) := by
  by_cases h : v = []
  · subst h; rfl
  · simp [_clean_value, h, hv]

/-- The body of `_clean_value` once the missing pre-checks have passed. -/
theorem clean_value_some (o : PandasOracle) (t : String) (v : List Char)
    (hs : pyStrip v ≠ []) :
    _clean_value o (Option.some v) t =
      (if t ∈ numericTags then
        (if (pyStrip v).filter keepNumericChar = [] ∨ (pyStrip v).filter keepNumericChar = ['-']
          then (Cell.none, false)
          else
            match parseNumeral ((pyStrip v).filter keepNumericChar) with
            | Option.none => (Cell.none, false)
            | Option.some q =>
              if t ∈ intTags then
                if q.den = 1 then (Cell.int q.num, false) else (Cell.float q, true)
              else (Cell.float q, false))
      else if t ∈ strTags then (Cell.str (pyStrip v), false)
      else
        match o.astypeCell (pyStrip v) t with
        | Option.some c => (c, false)
        | Option.none => (Cell.str (pyStrip v), true)) := by
  have h : v ≠ [] := by
    intro h
    subst h
    exact hs rfl
  simp only [_clean_value, if_neg h, if_neg hs]

theorem parseNumeral_nil : parseNumeral [] = Option.none := rfl

theorem parseNumeral_minus : parseNumeral ['-'] = Option.none := rfl

/-- C4: for every raw cell value and every target tag, an absent value
(not-a-number), the empty string, and any string that strips to empty all
normalize to the canonical missing marker, before any type-specific logic
runs, with no diagnostic emitted. -/
theorem C4_missing_precheck (o : PandasOracle) (t : String) :
    _clean_value o Option.none t = (Cell.none, false) ∧
    ∀ v : List Char, pyStrip v = [] → _clean_value o (Option.some v) t = (Cell.none, false) :=
  ⟨clean_value_none o t, fun v hv => clean_value_strip_nil o t v hv⟩

/-- Witness for C4: the not-a-number indicator, the empty string and a
whitespace-only string under a concrete target all clean to missing. -/
theorem C4_missing_precheck_witness :
    _clean_value trivOracle Option.none "float" = (Cell.none, false) ∧
    _clean_value trivOracle (Option.some []) "float" = (Cell.none, false) ∧
    _clean_value trivOracle (Option.some "   ".toList) "float" = (Cell.none, false) :=
  ⟨(C4_missing_precheck trivOracle "float").1,
   (C4_missing_precheck trivOracle "float").2 [] (by rfl),
   (C4_missing_precheck trivOracle "float").2 "   ".toList (by rfl)⟩

/-- C10: the numeric character filter is position-independent, so digit
groups separated by removed noise are concatenated: cleaning "12x34" under
target "int" yields the integer 1234, although the digit string "1234" never
occurs contiguously in the raw text. -/
theorem C10_filter_concatenates_digit_groups :
    (_clean_value trivOracle (Option.some "12x34".toList) "int").1 = Cell.int 1234 ∧
    containsSeq (natToDigits 1234) "12x34".toList = false := by
  constructor
  · with_unfolding_all rfl
  · rfl

/-- C2: under an integer target, a cell whose numeric parse succeeds comes
back as an integer when the parsed number equals its own rounding, and
otherwise as the exact float (no truncation, no exception) together with a
diagnostic warning. -/
theorem C2_int_target_parse (o : PandasOracle) (v : List Char) (t : String) (q : ℚ)
    (ht : t ∈ intTags) (hs : pyStrip v ≠ [])
    (hp : parseNumeral ((pyStrip v).filter keepNumericChar) = Option.some q) :
    _clean_value o (Option.some v) t =
      (if q.den = 1 then (Cell.int q.num, false) else (Cell.float q, true)) := by
  have hnum := mem_intTags_mem_numericTags ht
  have h1 : (pyStrip v).filter keepNumericChar ≠ [] := by
    intro h
    rw [h, parseNumeral_nil] at hp
    exact Option.noConfusion hp
  have h2 : (pyStrip v).filter keepNumericChar ≠ ['-'] := by
    intro h
    rw [h, parseNumeral_minus] at hp
    exact Option.noConfusion hp
  rw [clean_value_some o t v hs]
  simp [hnum, ht, h1, h2, hp]

/-- Witness for C2: cleaning "10.5" with target "int" yields the float 10.5
(not the truncated integer 10) and emits a diagnostic. -/
theorem C2_int_target_parse_witness :
    _clean_value trivOracle (Option.some "10.5".toList) "int" = (Cell.float (10.5 : ℚ), true) := by
  have hden : (10.5 : ℚ).den = 2 := by with_unfolding_all rfl
  have h := C2_int_target_parse trivOracle "10.5".toList "int" (10.5 : ℚ)
    (by decide) (by decide) (by with_unfolding_all rfl)
  rw [h, if_neg (by rw [hden]; decide)]

/-- C3: under a numeric target, cleaning keeps exactly the digits, decimal
points and minus signs of the stripped text, in their original relative
order; an empty, minus-only, or unparseable remainder yields missing, and
otherwise the parsed number (an integer exactly when the target is an
integer target and the value is whole). -/
theorem C3_numeric_noise_filter (o : PandasOracle) (v : List Char) (t : String)
    (ht : t ∈ numericTags) (hs : pyStrip v ≠ []) :
    List.Sublist ((pyStrip v).filter keepNumericChar) (pyStrip v) ∧
    (∀ c ∈ (pyStrip v).filter keepNumericChar, keepNumericChar c = true) ∧
    (∀ c : Char, keepNumericChar c = true →
      ((pyStrip v).filter keepNumericChar).count c = (pyStrip v).count c) ∧
    (((pyStrip v).filter keepNumericChar = [] ∨ (pyStrip v).filter keepNumericChar = ['-'] ∨
        parseNumeral ((pyStrip v).filter keepNumericChar) = Option.none) →
      (_clean_value o (Option.some v) t).1 = Cell.none) ∧
    (∀ q : ℚ, parseNumeral ((pyStrip v).filter keepNumericChar) = Option.some q →
      (t ∉ intTags → (_clean_value o (Option.some v) t).1 = Cell.float q) ∧
      (t ∈ intTags → (_clean_value o (Option.some v) t).1 =
        (if q.den = 1 then Cell.int q.num else Cell.float q))) := by
  refine ⟨List.filter_sublist _, fun c hc => List.of_mem_filter hc,
    fun c hc => List.count_filter hc, ?_, ?_⟩
  · intro h
    rcases h with h | h | h
    · rw [clean_value_some o t v hs]
      simp [ht, h]
    · rw [clean_value_some o t v hs]
      simp [ht, h]
    · by_cases hc : (pyStrip v).filter keepNumericChar = [] ∨
        (pyStrip v).filter keepNumericChar = ['-']
      · rw [clean_value_some o t v hs, if_pos ht, if_pos hc]
      · rw [clean_value_some o t v hs, if_pos ht, if_neg hc, h]
  · intro q hq
    have h1 : (pyStrip v).filter keepNumericChar ≠ [] := by
      intro h
      rw [h, parseNumeral_nil] at hq
      exact Option.noConfusion hq
    have h2 : (pyStrip v).filter keepNumericChar ≠ ['-'] := by
      intro h
      rw [h, parseNumeral_minus] at hq
      exact Option.noConfusion hq
    constructor
    · intro hi
      rw [clean_value_some o t v hs]
      simp [ht, h1, h2, hq, hi]
    · intro hi
      rw [clean_value_some o t v hs]
      by_cases hd : q.den = 1
      · simp [ht, h1, h2, hq, hi, hd]
      · simp [ht, h1, h2, hq, hi, hd]

/-- Witness for C3: "$1,234.50" under "float" parses to 1234.50; "1,000"
under "int" parses to the integer 1000; "$-" and "n/a" under numeric targets
clean to missing. -/
theorem C3_numeric_noise_filter_witness :
    (_clean_value trivOracle (Option.some "$1,234.50".toList) "float").1 =
      Cell.float (1234.5 : ℚ) ∧
    (_clean_value trivOracle (Option.some "1,000".toList) "int").1 = Cell.int 1000 ∧
    (_clean_value trivOracle (Option.some "$-".toList) "float").1 = Cell.none ∧
    (_clean_value trivOracle (Option.some "n/a".toList) "int").1 = Cell.none := by
  refine ⟨?_, ?_, ?_, ?_⟩
  · have h := ((C3_numeric_noise_filter trivOracle "$1,234.50".toList "float"
      (by decide) (by decide)).2.2.2.2 (1234.5 : ℚ) (by with_unfolding_all rfl)).1 (by decide)
    rw [h]
  · have h := ((C3_numeric_noise_filter trivOracle "1,000".toList "int"
      (by decide) (by decide)).2.2.2.2 (1000 : ℚ) (by with_unfolding_all rfl)).2 (by decide)
    rw [h, if_pos (by with_unfolding_all rfl)]
    with_unfolding_all rfl
  · exact (C3_numeric_noise_filter trivOracle "$-".toList "float"
      (by decide) (by decide)).2.2.2.1 (Or.inr (Or.inl (by rfl)))
  · exact (C3_numeric_noise_filter trivOracle "n/a".toList "int"
      (by decide) (by decide)).2.2.2.1 (Or.inl (by rfl))

/-- C8: under an unrecognized target tag (outside the int/float/string
families), a non-missing cell is converted through a direct `astype`; if that
conversion raises, the original stripped text is returned with a diagnostic
warning, and a column under such a tag never fails the whole cleaning call. -/
theorem C8_other_tag_fallback (o : PandasOracle) (v : List Char) (t : String)
    (hn : t ∉ numericTags) (hsr : t ∉ strTags) (hs : pyStrip v ≠ []) :
    (o.astypeCell (pyStrip v) t = Option.none →
      _clean_value o (Option.some v) t = (Cell.str (pyStrip v), true)) ∧
    (∀ c : Cell, o.astypeCell (pyStrip v) t = Option.some c →
      _clean_value o (Option.some v) t = (c, false)) ∧
    (∀ (dtypes : List (String × String)) (name : String) (raw : List (Option (List Char))),
      colTarget dtypes name = Option.some t →
      cleanColumn o dtypes name raw =
        Except.ok (finalizeOtherCol o t (raw.map (fun x => (_clean_value o x t).1)))) := by
  have hint : t ∉ intTags := fun h => hn (mem_intTags_mem_numericTags h)
  have hflt : t ∉ floatTags := fun h => hn (mem_floatTags_mem_numericTags h)
  refine ⟨?_, ?_, ?_⟩
  · intro h
    rw [clean_value_some o t v hs, if_neg hn, if_neg hsr, h]
  · intro c h
    rw [clean_value_some o t v hs, if_neg hn, if_neg hsr, h]
  · intro dtypes name raw hct
    rw [cleanColumn, hct]
    simp [hint, hflt, hsr]

/-- Witness for C8: with an oracle whose conversion always raises, cleaning
"abc" under the unrecognized tag "object" falls back to the stripped text
with a diagnostic, and the whole column call succeeds. -/
theorem C8_other_tag_fallback_witness :
    _clean_value trivOracle (Option.some "abc".toList) "object" =
      (Cell.str "abc".toList, true) ∧
    cleanColumn trivOracle [("a", "object")] "a" [Option.some "abc".toList] =
      Except.ok [Cell.str "abc".toList] := by
  constructor
  · have h := (C8_other_tag_fallback trivOracle "abc".toList "object"
      (by decide) (by decide) (by decide)).1 (by rfl)
    rw [h]
    rfl
  · have h := (C8_other_tag_fallback trivOracle "abc".toList "object"
      (by decide) (by decide) (by decide)).2.2 [("a", "object")] "a"
      [Option.some "abc".toList] (by rfl)
    rw [h]
    rfl

/-! ### Structure of the column loop -/

theorem lookup_skip_absent (name name' tag : String) (l1 l2 : List (String × String))
    (h : name' ≠ name) :
    List.lookup name' (l1 ++ (name, tag) :: l2) = List.lookup name' (l1 ++ l2) := by
  induction l1 with
  | nil => simp [List.lookup, beq_eq_false_iff_ne.mpr h]
  | cons p l1 ih =>
    cases p with
    | mk k w => simp [List.lookup, ih]

theorem colTarget_skip_absent (name name' tag : String) (l1 l2 : List (String × String))
    (h : name' ≠ name) :
    colTarget (l1 ++ (name, tag) :: l2) name' = colTarget (l1 ++ l2) name' := by
  rw [colTarget, colTarget, lookup_skip_absent name name' tag l1 l2 h]

theorem cleanColumn_congr (o : PandasOracle) (d1 d2 : List (String × String))
    (name : String) (raw : List (Option (List Char)))
    (h : colTarget d1 name = colTarget d2 name) :
    cleanColumn o d1 name raw = cleanColumn o d2 name raw := by
  rw [cleanColumn, cleanColumn, h]

theorem cleanColumns_congr (o : PandasOracle) (d1 d2 : List (String × String))
    (cols : List (String × List (Option (List Char))))
    (h : ∀ p ∈ cols, colTarget d1 p.1 = colTarget d2 p.1) :
    cleanColumns o d1 cols = cleanColumns o d2 cols := by
  induction cols with
  | nil => rfl
  | cons p rest ih =>
    have h1 := h p (List.mem_cons_self p rest)
    have h2 : ∀ q ∈ rest, colTarget d1 q.1 = colTarget d2 q.1 :=
      fun q hq => h q (List.mem_cons_of_mem p hq)
    simp only [cleanColumns, cleanColumn_congr o d1 d2 p.1 p.2 h1, ih h2]

/-- Successful column cleaning, column by column. -/
theorem cleanColumns_ok (o : PandasOracle) (d : List (String × String)) :
    ∀ (cols : List (String × List (Option (List Char)))) (cs : List (String × List Cell)),
      cleanColumns o d cols = Except.ok cs →
      List.Forall₂ (fun p pc => pc.1 = p.1 ∧ cleanColumn o d p.1 p.2 = Except.ok pc.2) cols cs
  | [], cs => by
    intro h
    rw [cleanColumns] at h
    cases h
    exact List.Forall₂.nil
  | p :: rest, cs => by
    intro h
    rw [cleanColumns] at h
    cases hc : cleanColumn o d p.1 p.2 with
    | error e => rw [hc] at h; exact Except.noConfusion h
    | ok c =>
      rw [hc] at h
      cases hr : cleanColumns o d rest with
      | error e => rw [hr] at h; exact Except.noConfusion h
      | ok cs2 =>
        rw [hr] at h
        cases h
        exact List.Forall₂.cons ⟨rfl, hc⟩ (cleanColumns_ok o d rest cs2 hr)

theorem forall₂_names {α β : Type} {R : (String × α) → (String × β) → Prop}
    (hR : ∀ p q, R p q → q.1 = p.1) :
    ∀ {as : List (String × α)} {bs : List (String × β)}, List.Forall₂ R as bs →
      bs.map Prod.fst = as.map Prod.fst := by
  intro as bs h
  induction h with
  | nil => rfl
  | cons hpq _ ih => simp [ih, hR _ _ hpq]

theorem forall₂_mem_right {α β : Type} {R : α → β → Prop} :
    ∀ {as : List α} {bs : List β}, List.Forall₂ R as bs → ∀ b ∈ bs, ∃ a ∈ as, R a b := by
  intro as bs h
  induction h with
  | nil => intro b hb; exact absurd hb (List.not_mem_nil b)
  | cons hpq _ ih =>
    intro b hb
    rcases List.mem_cons.mp hb with rfl | hb
    · exact ⟨_, List.mem_cons_self _ _, hpq⟩
    · obtain ⟨a, ha, hr⟩ := ih b hb
      exact ⟨a, List.mem_cons_of_mem _ ha, hr⟩

theorem cleanColumns_names (o : PandasOracle) (d : List (String × String))
    (cols : List (String × List (Option (List Char)))) (cs : List (String × List Cell))
    (h : cleanColumns o d cols = Except.ok cs) : cs.map Prod.fst = cols.map Prod.fst :=
  forall₂_names (fun _ _ hpq => hpq.1) (cleanColumns_ok o d cols cs h)

theorem toRecords_mem (cs : List (String × List Cell)) (r : List (String × Cell))
    (h : r ∈ toRecords cs) :
    ∃ i : Nat, r = cs.map (fun col => (col.1, col.2.getD i Cell.none)) := by
  cases cs with
  | nil => simp [toRecords] at h
  | cons p rest =>
    simp only [toRecords, List.mem_map, List.mem_range] at h
    obtain ⟨i, _, rfl⟩ := h
    exact ⟨i, rfl⟩

theorem toRecords_keys (cs : List (String × List Cell)) (r : List (String × Cell))
    (h : r ∈ toRecords cs) : r.map Prod.fst = cs.map Prod.fst := by
  obtain ⟨i, rfl⟩ := toRecords_mem cs r h
  rw [List.map_map]
  rfl

/-- C9: a type-specification entry whose column name does not occur in the
header has no effect on the output: it can be inserted or removed without
changing the result, and the output's columns are exactly the header's
columns in order. -/
theorem C9_spec_entries_for_absent_columns_ignored (o : PandasOracle) (t : RawTable)
    (l1 l2 : List (String × String)) (name tag : String)
    (h : name ∉ t.cols.map Prod.fst) :
    clean_csv_data o t (l1 ++ (name, tag) :: l2) = clean_csv_data o t (l1 ++ l2) ∧
    (∀ rs, clean_csv_data o t (l1 ++ (name, tag) :: l2) = Except.ok rs →
      ∀ r ∈ rs, r.map Prod.fst = t.cols.map Prod.fst) := by
  have hcc : cleanColumns o (l1 ++ (name, tag) :: l2) t.cols =
      cleanColumns o (l1 ++ l2) t.cols := by
    refine cleanColumns_congr o _ _ t.cols (fun p hp => ?_)
    refine colTarget_skip_absent name p.1 tag l1 l2 (fun he => h ?_)
    exact he ▸ List.mem_map_of_mem Prod.fst hp
  constructor
  · rw [clean_csv_data, clean_csv_data, hcc]
  · intro rs hok r hr
    rw [clean_csv_data] at hok
    cases hcs : cleanColumns o (l1 ++ (name, tag) :: l2) t.cols with
    | error e => rw [hcs] at hok; exact Except.noConfusion hok
    | ok cs =>
      rw [hcs] at hok
      cases hok
      rw [toRecords_keys cs r hr]
      exact cleanColumns_names o _ t.cols cs hcs

/-- Witness for C9: adding the entry ("zzz", "int") for a column absent from
the header changes nothing, and the output columns match the header. -/
theorem C9_spec_entries_for_absent_columns_ignored_witness :
    clean_csv_data trivOracle (RawTable.mk [("a", [Option.some ['1']])])
        ([("a", "int")] ++ ("zzz", "int") :: []) =
      clean_csv_data trivOracle (RawTable.mk [("a", [Option.some ['1']])]) ([("a", "int")] ++ []) ∧
    ∀ rs, clean_csv_data trivOracle (RawTable.mk [("a", [Option.some ['1']])])
        ([("a", "int")] ++ ("zzz", "int") :: []) = Except.ok rs →
      ∀ r ∈ rs, r.map Prod.fst = ["a"] :=
  C9_spec_entries_for_absent_columns_ignored trivOracle
    (RawTable.mk [("a", [Option.some ['1']])]) [("a", "int")] [] "zzz" "int" (by decide)

theorem finalizeIntCol_length (cells out : List Cell)
    (h : finalizeIntCol cells = Except.ok out) : out.length = cells.length := by
  simp only [finalizeIntCol] at h
  split at h
  · exact Except.noConfusion h
  · cases h
    simp

theorem finalizeOtherCol_length (o : PandasOracle) (tag : String) (cells : List Cell) :
    (finalizeOtherCol o tag cells).length = cells.length := by
  rw [finalizeOtherCol]
  split
  · exact o.toDatetimeCol_length cells
  · cases hx : o.astypeCol cells tag with
    | none => rfl
    | some cs => exact o.astypeCol_length cells tag cs hx

theorem cleanColumn_length (o : PandasOracle) (d : List (String × String)) (name : String)
    (raw : List (Option (List Char))) (c : List Cell)
    (h : cleanColumn o d name raw = Except.ok c) : c.length = raw.length := by
  cases hct : colTarget d name with
  | none =>
    simp only [cleanColumn, hct] at h
    cases h
    simp
  | some tag =>
    simp only [cleanColumn, hct] at h
    split at h
    · rw [finalizeIntCol_length _ _ h]
      simp
    · split at h
      · cases h
        simp [finalizeFloatCol]
      · split at h
        · cases h
          simp [finalizeStrCol]
        · cases h
          rw [finalizeOtherCol_length]
          simp

theorem toRecords_length (cs : List (String × List Cell)) (n : Nat) (hne : cs ≠ [])
    (hlen : ∀ p ∈ cs, p.2.length = n) : (toRecords cs).length = n := by
  cases cs with
  | nil => exact absurd rfl hne
  | cons p rest =>
    simp [toRecords, hlen p (List.mem_cons_self p rest)]

theorem toRecords_getD (cs : List (String × List Cell)) (n i : Nat) (hne : cs ≠ [])
    (hlen : ∀ p ∈ cs, p.2.length = n) (hi : i < n) :
    (toRecords cs).getD i [] = cs.map (fun col => (col.1, col.2.getD i Cell.none)) := by
  cases cs with
  | nil => exact absurd rfl hne
  | cons p rest =>
    have hp : p.2.length = n := hlen p (List.mem_cons_self p rest)
    simp only [toRecords, List.getD, List.getElem?_map, List.getElem?_range]
    rw [hp]
    simp [hi]

/-- C6: for any header order and any number `n` of data rows, a successful
cleaning produces exactly `n` records; each record lists the columns in the
header's order, and the `i`-th record is built from the `i`-th entry of every
cleaned column (row order preserved, nothing dropped, duplicated or
reordered). -/
theorem C6_row_column_order_preserved (o : PandasOracle) (t : RawTable)
    (dtypes : List (String × String)) (n : Nat) (rs : List (List (String × Cell)))
    (hne : t.cols ≠ []) (hlen : ∀ p ∈ t.cols, p.2.length = n)
    (hok : clean_csv_data o t dtypes = Except.ok rs) :
    rs.length = n ∧
    (∀ r ∈ rs, r.map Prod.fst = t.cols.map Prod.fst) ∧
    ∃ cs, cleanColumns o dtypes t.cols = Except.ok cs ∧
      cs.map Prod.fst = t.cols.map Prod.fst ∧
      (∀ p ∈ cs, p.2.length = n) ∧
      rs = toRecords cs ∧
      ∀ i : Nat, i < n → rs.getD i [] = cs.map (fun col => (col.1, col.2.getD i Cell.none)) := by
  rw [clean_csv_data] at hok
  cases hcs : cleanColumns o dtypes t.cols with
  | error e => rw [hcs] at hok; exact Except.noConfusion hok
  | ok cs =>
    rw [hcs] at hok
    cases hok
    have hnames := cleanColumns_names o dtypes t.cols cs hcs
    have hcne : cs ≠ [] := by
      intro hnil
      subst hnil
      cases ht : t.cols with
      | nil => exact hne ht
      | cons p rest =>
        rw [ht] at hnames
        simp at hnames
    have hlens : ∀ p ∈ cs, p.2.length = n := by
      intro p hp
      obtain ⟨q, hq, hr⟩ := forall₂_mem_right (cleanColumns_ok o dtypes t.cols cs hcs) p hp
      rw [cleanColumn_length o dtypes q.1 q.2 p.2 hr.2]
      exact hlen q hq
    refine ⟨toRecords_length cs n hcne hlens, ?_, cs, rfl, hnames, hlens, rfl, ?_⟩
    · intro r hr
      rw [toRecords_keys cs r hr, hnames]
    · intro i hi
      exact toRecords_getD cs n i hcne hlens hi

/-- Witness for C6: a two-column, two-row table with columns [B, A] cleans to
two records whose keys are [B, A] in order. -/
theorem C6_row_column_order_preserved_witness :
    clean_csv_data trivOracle
        (RawTable.mk [("B", [Option.some ['1'], Option.none]),
                      ("A", [Option.some [' ', 'x', ' '], Option.some ['2']])])
        [("A", "int")] =
      Except.ok [[("B", Cell.str ['1']), ("A", Cell.none)],
                 [("B", Cell.none), ("A", Cell.int 2)]] ∧
    ([[("B", Cell.str ['1']), ("A", Cell.none)],
      [("B", Cell.none), ("A", Cell.int 2)]] : List (List (String × Cell))).length = 2 ∧
    ∀ r ∈ ([[("B", Cell.str ['1']), ("A", Cell.none)],
            [("B", Cell.none), ("A", Cell.int 2)]] : List (List (String × Cell))),
      r.map Prod.fst = ["B", "A"] := by
  have hok : clean_csv_data trivOracle
      (RawTable.mk [("B", [Option.some ['1'], Option.none]),
                    ("A", [Option.some [' ', 'x', ' '], Option.some ['2']])])
      [("A", "int")] =
      Except.ok [[("B", Cell.str ['1']), ("A", Cell.none)],
                 [("B", Cell.none), ("A", Cell.int 2)]] := by with_unfolding_all rfl
  have h := C6_row_column_order_preserved trivOracle
    (RawTable.mk [("B", [Option.some ['1'], Option.none]),
                  ("A", [Option.some [' ', 'x', ' '], Option.some ['2']])])
    [("A", "int")] 2 _ (by decide) (by decide) hok
  exact ⟨hok, h.1, h.2.1⟩

/-! ### Int-target column finalization and the error boundary -/

/-- Under a numeric target the per-cell cleaner yields only missing,
integer, or (parse-produced) float cells — never a string. -/
theorem clean_value_numeric_shape (o : PandasOracle) (x : Option (List Char)) (tag : String)
    (ht : tag ∈ numericTags) :
    (_clean_value o x tag).1 = Cell.none ∨
    (∃ n, (_clean_value o x tag).1 = Cell.int n) ∨
    (∃ q l, (_clean_value o x tag).1 = Cell.float q ∧ parseNumeral l = Option.some q) := by
  cases x with
  | none => exact Or.inl rfl
  | some v =>
    by_cases hv : pyStrip v = []
    · rw [clean_value_strip_nil o tag v hv]
      exact Or.inl rfl
    · rw [clean_value_some o tag v hv, if_pos ht]
      by_cases hc : (pyStrip v).filter keepNumericChar = [] ∨
          (pyStrip v).filter keepNumericChar = ['-']
      · rw [if_pos hc]
        exact Or.inl rfl
      · rw [if_neg hc]
        cases hp : parseNumeral ((pyStrip v).filter keepNumericChar) with
        | none => exact Or.inl rfl
        | some q =>
          by_cases hi : tag ∈ intTags
          · by_cases hd : q.den = 1
            · simp only [if_pos hi, if_pos hd]
              exact Or.inr (Or.inl ⟨q.num, rfl⟩)
            · simp only [if_pos hi, if_neg hd]
              exact Or.inr (Or.inr ⟨q, _, rfl, hp⟩)
          · simp only [if_neg hi]
            exact Or.inr (Or.inr ⟨q, _, rfl, hp⟩)

theorem toNumericCoerce_clean_value (o : PandasOracle) (x : Option (List Char)) (tag : String)
    (ht : tag ∈ numericTags) :
    toNumericCoerce (_clean_value o x tag).1 = (_clean_value o x tag).1 := by
  rcases clean_value_numeric_shape o x tag ht with h | ⟨n, h⟩ | ⟨q, l, h, _⟩ <;> rw [h] <;> rfl

theorem map_toNumericCoerce_clean (o : PandasOracle) (raw : List (Option (List Char)))
    (tag : String) (ht : tag ∈ numericTags) :
    (raw.map (fun x => (_clean_value o x tag).1)).map toNumericCoerce =
      raw.map (fun x => (_clean_value o x tag).1) := by
  rw [List.map_map]
  exact List.map_congr_left (fun x _ => toNumericCoerce_clean_value o x tag ht)

theorem exceptOk_finalizeIntCol (cells : List Cell) :
    exceptOk (finalizeIntCol cells) = !((cells.map toNumericCoerce).any isFracFloat) := by
  simp only [finalizeIntCol]
  split <;> simp_all [exceptOk]

theorem all_not_eq_not_any {α : Type} (l : List α) (p : α → Bool) :
    l.all (fun a => !(p a)) = !(l.any p) := by
  induction l <;> simp [*]

theorem cleanColumn_ok_iff_not_bad (o : PandasOracle) (d : List (String × String))
    (p : String × List (Option (List Char))) :
    exceptOk (cleanColumn o d p.1 p.2) = !(colHasBadInt o d p) := by
  cases hct : colTarget d p.1 with
  | none => simp [cleanColumn, hct, colHasBadInt, exceptOk]
  | some tag =>
    by_cases hi : tag ∈ intTags
    · have hnum := mem_intTags_mem_numericTags hi
      have e1 : cleanColumn o d p.1 p.2 =
          finalizeIntCol (p.2.map (fun x => (_clean_value o x tag).1)) := by
        simp only [cleanColumn, hct, if_pos hi]
      have e2 : colHasBadInt o d p =
          p.2.any (fun x => isFracFloat (_clean_value o x tag).1) := by
        simp only [colHasBadInt, hct, decide_eq_true hi, Bool.true_and]
      rw [e1, e2, exceptOk_finalizeIntCol, map_toNumericCoerce_clean o p.2 tag hnum]
      congr 1
      induction p.2 with
      | nil => rfl
      | cons x xs ih => simp [ih]
    · have e2 : colHasBadInt o d p = false := by
        simp only [colHasBadInt, hct, decide_eq_false hi, Bool.false_and]
      rw [e2, Bool.not_false]
      simp only [cleanColumn, hct, if_neg hi]
      split
      · rfl
      · split
        · rfl
        · rfl

theorem exceptOk_cleanColumns (o : PandasOracle) (d : List (String × String)) :
    ∀ cols : List (String × List (Option (List Char))),
      exceptOk (cleanColumns o d cols) = cols.all (fun p => exceptOk (cleanColumn o d p.1 p.2))
  | [] => rfl
  | p :: rest => by
    have ih := exceptOk_cleanColumns o d rest
    rw [cleanColumns]
    cases hc : cleanColumn o d p.1 p.2 with
    | error e =>
      rw [List.all_cons, hc]
      simp [exceptOk]
    | ok c =>
      cases hr : cleanColumns o d rest with
      | error e =>
        rw [hr] at ih
        rw [List.all_cons, hc, ← ih]
        simp [exceptOk]
      | ok cs =>
        rw [hr] at ih
        rw [List.all_cons, hc, ← ih]
        simp [exceptOk]

theorem exceptOk_clean_csv_data (o : PandasOracle) (t : RawTable)
    (d : List (String × String)) :
    exceptOk (clean_csv_data o t d) = exceptOk (cleanColumns o d t.cols) := by
  rw [clean_csv_data]
  cases cleanColumns o d t.cols <;> rfl

/-- C1 (amended): per-cell cleaning under an int target leaves only missing,
integer, or fractional-float cells; a column with no fractional cleaned cell
is finalized to the nullable-integer form (missing preserved, whole floats
cast to integers) and the call succeeds, but a column containing a
fractional cleaned value (e.g. 10.5) makes the nullable-integer cast raise,
and the exception is caught at the call boundary and returned as an error
result — the call does not succeed. -/
theorem C1_int_column_finalization (o : PandasOracle) (t : RawTable)
    (dtypes : List (String × String)) :
    (t.cols.any (colHasBadInt o dtypes) = false →
      exceptOk (clean_csv_data o t dtypes) = true) ∧
    (t.cols.any (colHasBadInt o dtypes) = true →
      exceptOk (clean_csv_data o t dtypes) = false) ∧
    (∀ (name : String) (raw : List (Option (List Char))) (tag : String),
      colTarget dtypes name = Option.some tag → tag ∈ intTags →
      (raw.map (fun x => (_clean_value o x tag).1)).any isFracFloat = false →
      cleanColumn o dtypes name raw =
        Except.ok ((raw.map (fun x => (_clean_value o x tag).1)).map (fun c =>
          match c with
          | Cell.float q => Cell.int q.num
          | c => c))) := by
  have hmain : exceptOk (clean_csv_data o t dtypes) = !(t.cols.any (colHasBadInt o dtypes)) := by
    rw [exceptOk_clean_csv_data, exceptOk_cleanColumns]
    calc t.cols.all (fun p => exceptOk (cleanColumn o dtypes p.1 p.2))
        = t.cols.all (fun p => !(colHasBadInt o dtypes p)) := by
          induction t.cols with
          | nil => rfl
          | cons p rest ih => simp [cleanColumn_ok_iff_not_bad o dtypes p, ih]
      _ = !(t.cols.any (colHasBadInt o dtypes)) := all_not_eq_not_any _ _
  refine ⟨fun h => by rw [hmain, h]; rfl, fun h => by rw [hmain, h]; rfl, ?_⟩
  intro name raw tag hct hi hfr
  have hnum := mem_intTags_mem_numericTags hi
  have e1 : cleanColumn o dtypes name raw =
      finalizeIntCol (raw.map (fun x => (_clean_value o x tag).1)) := by
    simp only [cleanColumn, hct, if_pos hi]
  rw [e1]
  simp only [finalizeIntCol, map_toNumericCoerce_clean o raw tag hnum, hfr]
  rfl

/-- Counterexample to C1 as stated: a single int-target column containing
"10.5" does not yield a successful result — the whole call returns the
column-cast error. -/
theorem C1_counterexample :
    clean_csv_data trivOracle (RawTable.mk [("a", [Option.some "10.5".toList])]) [("a", "int")] =
      Except.error "cannot safely cast non-equivalent float64 to int64" := by
  with_unfolding_all rfl

/-- Witness for C1 (amended): an int column of whole values succeeds; an int
column containing "10.5" makes the whole call return an error result. -/
theorem C1_int_column_finalization_witness :
    exceptOk (clean_csv_data trivOracle (RawTable.mk [("a", [Option.some ['7'], Option.none])])
      [("a", "int")]) = true ∧
    exceptOk (clean_csv_data trivOracle (RawTable.mk [("b", [Option.some "10.5".toList])])
      [("b", "int")]) = false :=
  ⟨(C1_int_column_finalization trivOracle
      (RawTable.mk [("a", [Option.some ['7'], Option.none])]) [("a", "int")]).1
      (by with_unfolding_all rfl),
   (C1_int_column_finalization trivOracle
      (RawTable.mk [("b", [Option.some "10.5".toList])]) [("b", "int")]).2.1
      (by with_unfolding_all rfl)⟩

/-! ### Idempotence of stripping -/

theorem dropWhile_head_or (p : Char → Bool) :
    ∀ l : List Char, l.dropWhile p = [] ∨ ∃ a t, l.dropWhile p = a :: t ∧ p a = false := by
  intro l
  induction l with
  | nil => exact Or.inl rfl
  | cons a t ih =>
    by_cases h : p a
    · rw [List.dropWhile_cons_of_pos h]
      exact ih
    · rw [List.dropWhile_cons_of_neg h]
      exact Or.inr ⟨a, t, rfl, Bool.eq_false_iff.mpr h⟩

theorem dropWhile_eq_self_of (p : Char → Bool) (l : List Char)
    (h : ∀ a, l.head? = Option.some a → p a = false) : l.dropWhile p = l := by
  cases l with
  | nil => rfl
  | cons a t =>
    have ha := h a rfl
    rw [List.dropWhile_cons_of_neg (by rw [ha]; exact Bool.false_ne_true)]

theorem dropWhile_getLast? (p : Char → Bool) :
    ∀ l : List Char, l.dropWhile p ≠ [] → (l.dropWhile p).getLast? = l.getLast? := by
  intro l
  induction l with
  | nil => intro h; exact absurd rfl h
  | cons a t ih =>
    intro h
    by_cases hp : p a
    · rw [List.dropWhile_cons_of_pos hp] at h ⊢
      have ht : t ≠ [] := by
        intro he
        rw [he] at h
        exact h rfl
      cases t with
      | nil => exact absurd rfl ht
      | cons b t2 => rw [ih h, List.getLast?_cons_cons]
    · rw [List.dropWhile_cons_of_neg hp]

theorem pyStrip_idem (v : List Char) : pyStrip (pyStrip v) = pyStrip v := by
  rw [pyStrip]
  have hA := dropWhile_head_or pyIsSpace v
  have hB := dropWhile_head_or pyIsSpace (v.dropWhile pyIsSpace).reverse
  have h1 : (pyStrip v).dropWhile pyIsSpace = pyStrip v := by
    refine dropWhile_eq_self_of pyIsSpace _ (fun a ha => ?_)
    rw [pyStrip, List.head?_reverse] at ha
    have hne : (v.dropWhile pyIsSpace).reverse.dropWhile pyIsSpace ≠ [] := by
      intro he
      rw [he] at ha
      exact Option.noConfusion ha
    rw [dropWhile_getLast? pyIsSpace _ hne, List.getLast?_reverse] at ha
    rcases hA with hA | ⟨b, t, hA, hb⟩
    · rw [hA] at ha
      exact Option.noConfusion ha
    · rw [hA] at ha
      cases ha
      exact hb
  rw [h1]
  have h2 : ((pyStrip v).reverse).dropWhile pyIsSpace = (pyStrip v).reverse := by
    refine dropWhile_eq_self_of pyIsSpace _ (fun a ha => ?_)
    rw [pyStrip, List.reverse_reverse] at ha
    rcases hB with hB | ⟨b, t, hB, hb⟩
    · rw [hB] at ha
      exact Option.noConfusion ha
    · rw [hB] at ha
      cases ha
      exact hb
  rw [h2, List.reverse_reverse]

/-! ### Output cell shapes -/

theorem mem_intTags_not_float {t : String} (h : t ∈ intTags) : t ∉ floatTags := by
  simp only [intTags, List.mem_cons, List.not_mem_nil, or_false] at h
  rcases h with rfl | rfl <;> decide

theorem mem_intTags_not_str {t : String} (h : t ∈ intTags) : t ∉ strTags := by
  simp only [intTags, List.mem_cons, List.not_mem_nil, or_false] at h
  rcases h with rfl | rfl <;> decide

theorem mem_floatTags_not_str {t : String} (h : t ∈ floatTags) : t ∉ strTags := by
  simp only [floatTags, List.mem_cons, List.not_mem_nil, or_false] at h
  rcases h with rfl | rfl <;> decide

/-- Under a string target the per-cell cleaner yields missing or the
(nonempty) stripped text. -/
theorem clean_value_str_shape (o : PandasOracle) (x : Option (List Char)) (tag : String)
    (ht : tag ∈ strTags) :
    (_clean_value o x tag).1 = Cell.none ∨
    (∃ s, (_clean_value o x tag).1 = Cell.str s ∧ s ≠ [] ∧ s = pyStrip s ∧
      ∃ v, s = pyStrip v) := by
  cases x with
  | none => exact Or.inl rfl
  | some v =>
    by_cases hv : pyStrip v = []
    · rw [clean_value_strip_nil o tag v hv]
      exact Or.inl rfl
    · rw [clean_value_some o tag v hv, if_neg (strTags_not_numeric ht), if_pos ht]
      exact Or.inr ⟨pyStrip v, rfl, hv, (pyStrip_idem v).symm, v, rfl⟩

theorem finalizeIntCol_shape (cells out : List Cell) (h : finalizeIntCol cells = Except.ok out) :
    ∀ c ∈ out, c = Cell.none ∨ ∃ n, c = Cell.int n := by
  simp only [finalizeIntCol] at h
  split at h
  · exact Except.noConfusion h
  · cases h
    intro c hc
    rw [List.mem_map] at hc
    obtain ⟨b, hb, rfl⟩ := hc
    rw [List.mem_map] at hb
    obtain ⟨a, _, rfl⟩ := hb
    cases a with
    | none => exact Or.inl rfl
    | int n => exact Or.inr ⟨n, rfl⟩
    | float q => exact Or.inr ⟨q.num, rfl⟩
    | str s =>
      simp only [toNumericCoerce]
      cases parseNumeral s with
      | none => exact Or.inl rfl
      | some q => exact Or.inr ⟨q.num, rfl⟩

theorem finalizeFloatCol_shape (cells : List Cell) :
    ∀ c ∈ finalizeFloatCol cells, c = Cell.none ∨ ∃ q, c = Cell.float q := by
  intro c hc
  rw [finalizeFloatCol, List.mem_map] at hc
  obtain ⟨a, _, rfl⟩ := hc
  cases a with
  | none => exact Or.inl rfl
  | int n => exact Or.inr ⟨(n : ℚ), rfl⟩
  | float q => exact Or.inr ⟨q, rfl⟩
  | str s =>
    simp only [toNumericCoerce]
    cases parseNumeral s with
    | none => exact Or.inl rfl
    | some q => exact Or.inr ⟨q, rfl⟩

theorem getD_mem_or_default {α : Type} :
    ∀ (l : List α) (i : Nat) (d : α), l.getD i d ∈ l ∨ l.getD i d = d := by
  intro l
  induction l with
  | nil =>
    intro i d
    right
    cases i <;> rfl
  | cons a t ih =>
    intro i d
    cases i with
    | zero => exact Or.inl (List.mem_cons_self a t)
    | succ j =>
      rcases ih j d with h | h
      · exact Or.inl (List.mem_cons_of_mem a h)
      · exact Or.inr h

theorem cellOkFor_none (dtypes : List (String × String)) (name : String) :
    cellOkFor dtypes name Cell.none := by
  cases h : colTarget dtypes name with
  | none => simp [cellOkFor, h]
  | some tag => simp [cellOkFor, h]

/-- Every cell of a successfully cleaned column satisfies the output-shape
invariant for its column. -/
theorem cleanColumn_cellOk (o : PandasOracle) (d : List (String × String)) (name : String)
    (raw : List (Option (List Char))) (out : List Cell)
    (h : cleanColumn o d name raw = Except.ok out) : ∀ c ∈ out, cellOkFor d name c := by
  intro c hc
  cases hct : colTarget d name with
  | none =>
    simp only [cleanColumn, hct] at h
    cases h
    rw [List.mem_map] at hc
    obtain ⟨x, _, rfl⟩ := hc
    cases x with
    | none => exact cellOkFor_none d name
    | some v =>
      simp only [cellOkFor, hct, stripOnlyCell]
      exact Or.inr ⟨pyStrip v, rfl⟩
  | some tag =>
    simp only [cleanColumn, hct] at h
    simp only [cellOkFor, hct]
    split at h
    · rename_i hi
      rcases finalizeIntCol_shape _ _ h c hc with rfl | ⟨n, rfl⟩
      · exact ⟨fun _ => Or.inl rfl, fun _ => Or.inl rfl, fun _ => Or.inl rfl⟩
      · exact ⟨fun _ => Or.inr ⟨n, rfl⟩, fun hf => absurd hf (mem_intTags_not_float hi),
          fun hs => absurd hs (mem_intTags_not_str hi)⟩
    · split at h
      · rename_i hni hf
        cases h
        rcases finalizeFloatCol_shape _ c hc with rfl | ⟨q, rfl⟩
        · exact ⟨fun _ => Or.inl rfl, fun _ => Or.inl rfl, fun _ => Or.inl rfl⟩
        · exact ⟨fun hi => absurd hi hni, fun _ => Or.inr ⟨q, rfl⟩,
            fun hs => absurd hs (mem_floatTags_not_str hf)⟩
      · split at h
        · rename_i hni hnf hs
          cases h
          rw [finalizeStrCol, List.mem_map] at hc
          obtain ⟨b, hb, rfl⟩ := hc
          rw [List.mem_map] at hb
          obtain ⟨x, _, rfl⟩ := hb
          rcases clean_value_str_shape o x tag hs with he | ⟨s, he, hsne, _, _⟩
          · rw [he]
            exact ⟨fun _ => Or.inl rfl, fun _ => Or.inl rfl, fun _ => Or.inl rfl⟩
          · rw [he]
            exact ⟨fun hi => absurd hi hni, fun hf => absurd hf hnf,
              fun _ => Or.inr ⟨s, rfl, hsne⟩⟩
        · rename_i hni hnf hns
          exact ⟨fun hi => absurd hi hni, fun hf => absurd hf hnf,
            fun hs => absurd hs hns⟩

/-- C5 (amended): in every successful output, each cell of a column with an
int/float/string target is a value of the finalized type or the canonical
missing marker None (string cells nonempty); cells of columns absent from the
type specification are stripped strings or None — but there a whitespace-only
raw cell survives as the empty string. -/
theorem C5_output_cells_typed_or_missing (o : PandasOracle) (t : RawTable)
    (dtypes : List (String × String)) (rs : List (List (String × Cell)))
    (hok : clean_csv_data o t dtypes = Except.ok rs) :
    ∀ r ∈ rs, ∀ p ∈ r, cellOkFor dtypes p.1 p.2 := by
  rw [clean_csv_data] at hok
  cases hcs : cleanColumns o dtypes t.cols with
  | error e => rw [hcs] at hok; exact Except.noConfusion hok
  | ok cs =>
    rw [hcs] at hok
    cases hok
    intro r hr p hp
    obtain ⟨i, rfl⟩ := toRecords_mem cs r hr
    rw [List.mem_map] at hp
    obtain ⟨col, hcol, rfl⟩ := hp
    rcases getD_mem_or_default col.2 i Cell.none with h | h
    · obtain ⟨q, hq, hr2⟩ := forall₂_mem_right (cleanColumns_ok o dtypes t.cols cs hcs) col hcol
      have hok2 := cleanColumn_cellOk o dtypes q.1 q.2 col.2 hr2.2 _ h
      show cellOkFor dtypes col.1 (col.2.getD i Cell.none)
      rw [hr2.1]
      exact hok2
    · rw [h]
      exact cellOkFor_none dtypes col.1

/-- Counterexample to C5 as stated: a whitespace-only cell in a column absent
from the type specification survives as the empty string in the output, not
as the missing marker. -/
theorem C5_counterexample :
    clean_csv_data trivOracle (RawTable.mk [("a", [Option.some [' ', ' ', ' ']])]) [] =
      Except.ok [[("a", Cell.str [])]] := by
  with_unfolding_all rfl

/-- Witness for C5 (amended): a concrete successful cleaning whose cells all
satisfy the per-column output-shape invariant. -/
theorem C5_output_cells_typed_or_missing_witness :
    clean_csv_data trivOracle
        (RawTable.mk [("a", [Option.some "1,5".toList, Option.some " x ".toList]),
                      ("b", [Option.some " y ".toList, Option.none])])
        [("a", "float"), ("b", "str")] =
      Except.ok [[("a", Cell.float (15 : ℚ)), ("b", Cell.str ['y'])],
                 [("a", Cell.none), ("b", Cell.none)]] ∧
    ∀ r ∈ [[("a", Cell.float (15 : ℚ)), ("b", Cell.str ['y'])],
           [("a", Cell.none), ("b", Cell.none)]],
      ∀ p ∈ r, cellOkFor [("a", "float"), ("b", "str")] p.1 p.2 := by
  have hok : clean_csv_data trivOracle
      (RawTable.mk [("a", [Option.some "1,5".toList, Option.some " x ".toList]),
                    ("b", [Option.some " y ".toList, Option.none])])
      [("a", "float"), ("b", "str")] =
      Except.ok [[("a", Cell.float (15 : ℚ)), ("b", Cell.str ['y'])],
                 [("a", Cell.none), ("b", Cell.none)]] := by
    with_unfolding_all rfl
  exact ⟨hok, C5_output_cells_typed_or_missing trivOracle _ _ _ hok⟩

/-! ### Decimal digit strings -/

theorem natToDigitsAux_acc : ∀ (f n : Nat) (acc : List Char),
    natToDigitsAux f n acc = natToDigitsAux f n [] ++ acc := by
  intro f
  induction f with
  | zero => intro n acc; rfl
  | succ g ih =>
    intro n acc
    by_cases h : n < 10
    · simp [natToDigitsAux, h]
    · simp only [natToDigitsAux, if_neg h]
      rw [ih (n / 10) (Nat.digitChar (n % 10) :: acc), ih (n / 10) [Nat.digitChar (n % 10)]]
      simp

theorem natToDigitsAux_fuel : ∀ (f n : Nat) (acc : List Char), 0 < f → n < 10 ^ f →
    natToDigitsAux f n acc = natToDigitsAux (f + 1) n acc := by
  intro f
  induction f with
  | zero => intro n acc h; exact absurd h (by omega)
  | succ g ih =>
    intro n acc _ hn
    by_cases h : n < 10
    · simp [natToDigitsAux, h]
    · simp only [natToDigitsAux, if_neg h]
      have hg : 0 < g := by
        by_contra hg0
        have : g = 0 := by omega
        rw [this] at hn
        simp at hn
        omega
      have hdiv : n / 10 < 10 ^ g := by
        rw [Nat.div_lt_iff_lt_mul (by omega : 0 < 10)]
        calc n < 10 ^ (g + 1) := hn
          _ = 10 ^ g * 10 := by rw [pow_succ]
      exact ih (n / 10) (Nat.digitChar (n % 10) :: acc) hg hdiv

theorem natToDigitsAux_fuel_ge (f g n : Nat) (acc : List Char) (hf : 0 < f)
    (hn : n < 10 ^ f) (hfg : f ≤ g) :
    natToDigitsAux f n acc = natToDigitsAux g n acc := by
  induction g, hfg using Nat.le_induction with
  | base => rfl
  | succ g hg ih =>
    rw [ih, natToDigitsAux_fuel g n acc (by omega) (lt_of_lt_of_le hn
      (Nat.pow_le_pow_right (by omega) hg))]

theorem natToDigits_lt (n : Nat) (h : n < 10) : natToDigits n = [Nat.digitChar n] := by
  simp [natToDigits, natToDigitsAux, h]

theorem natToDigits_ge (n : Nat) (h : 10 ≤ n) :
    natToDigits n = natToDigits (n / 10) ++ [Nat.digitChar (n % 10)] := by
  rw [natToDigits, natToDigits]
  have e1 : natToDigitsAux (n + 1) n [] =
      natToDigitsAux n (n / 10) [Nat.digitChar (n % 10)] := by
    simp [natToDigitsAux, Nat.not_lt.mpr h]
  rw [e1, natToDigitsAux_acc]
  congr 1
  refine (natToDigitsAux_fuel_ge (n / 10 + 1) n (n / 10) [] (by omega) ?_ (by omega)).symm
  calc n / 10 < 10 ^ (n / 10) := Nat.lt_pow_self (by omega) (n / 10)
    _ ≤ 10 ^ (n / 10 + 1) := Nat.pow_le_pow_right (by omega) (by omega)

theorem digitChar_facts : ∀ r : Nat, r < 10 →
    (Nat.digitChar r).isDigit = true ∧ (Nat.digitChar r).toNat - 48 = r ∧
    pyIsSpace (Nat.digitChar r) = false ∧ keepNumericChar (Nat.digitChar r) = true ∧
    ((Nat.digitChar r) == '.') = false ∧ ((Nat.digitChar r) == '-') = false := by
  decide

theorem natToDigits_digits (n : Nat) : ∀ c ∈ natToDigits n, c.isDigit = true := by
  induction n using Nat.strong_induction_on with
  | _ n ih =>
    by_cases h : n < 10
    · rw [natToDigits_lt n h]
      intro c hc
      rw [List.mem_singleton] at hc
      subst hc
      exact (digitChar_facts n h).1
    · rw [natToDigits_ge n (by omega)]
      intro c hc
      rcases List.mem_append.mp hc with hc | hc
      · exact ih (n / 10) (by omega) c hc
      · rw [List.mem_singleton] at hc
        subst hc
        exact (digitChar_facts (n % 10) (by omega)).1

theorem natToDigits_ne_nil (n : Nat) : natToDigits n ≠ [] := by
  by_cases h : n < 10
  · rw [natToDigits_lt n h]
    exact List.cons_ne_nil _ _
  · rw [natToDigits_ge n (by omega)]
    simp

theorem digitsToNat_foldl_shift (l : List Char) : ∀ a : Nat,
    l.foldl (fun a c => 10 * a + (c.toNat - 48)) a = a * 10 ^ l.length + digitsToNat l := by
  induction l with
  | nil => intro a; simp [digitsToNat]
  | cons c t ih =>
    intro a
    simp only [digitsToNat, List.foldl_cons, List.length_cons]
    rw [ih (10 * a + (c.toNat - 48)), ih (10 * 0 + (c.toNat - 48))]
    simp only [Nat.mul_zero, Nat.zero_add, pow_succ]
    ring

theorem digitsToNat_append (l1 l2 : List Char) :
    digitsToNat (l1 ++ l2) = digitsToNat l1 * 10 ^ l2.length + digitsToNat l2 := by
  rw [digitsToNat, List.foldl_append, ← digitsToNat, digitsToNat_foldl_shift]

theorem digitsToNat_natToDigits (n : Nat) : digitsToNat (natToDigits n) = n := by
  induction n using Nat.strong_induction_on with
  | _ n ih =>
    by_cases h : n < 10
    · rw [natToDigits_lt n h]
      have := (digitChar_facts n h).2.1
      simp [digitsToNat, this]
    · rw [natToDigits_ge n (by omega), digitsToNat_append, ih (n / 10) (by omega)]
      have := (digitChar_facts (n % 10) (by omega)).2.1
      simp [digitsToNat, this]
      omega

theorem natToDigits_len_le : ∀ (k n : Nat), 0 < k → n < 10 ^ k →
    (natToDigits n).length ≤ k := by
  intro k
  induction k with
  | zero => intro n h; exact absurd h (by omega)
  | succ k ih =>
    intro n _ hn
    by_cases h : n < 10
    · rw [natToDigits_lt n h]
      simp
    · have hk : 0 < k := by
        by_contra hk0
        have : k = 0 := by omega
        rw [this] at hn
        simp at hn
        omega
      rw [natToDigits_ge n (by omega)]
      have hdiv : n / 10 < 10 ^ k := by
        rw [Nat.div_lt_iff_lt_mul (by omega : 0 < 10)]
        calc n < 10 ^ (k + 1) := hn
          _ = 10 ^ k * 10 := by rw [pow_succ]
      have := ih (n / 10) hk hdiv
      simp only [List.length_append, List.length_singleton]
      omega

theorem digitsToNat_replicate_zero (j : Nat) :
    digitsToNat (List.replicate j '0') = 0 := by
  induction j with
  | zero => rfl
  | succ j ih =>
    rw [List.replicate_succ]
    show (List.replicate j '0').foldl (fun a c => 10 * a + (c.toNat - 48)) (10 * 0 + ('0'.toNat - 48)) = 0
    have : 10 * 0 + ('0'.toNat - 48) = 0 := by decide
    rw [this]
    exact ih

theorem digitsToNat_padZero (k : Nat) (l : List Char) :
    digitsToNat (padZero k l) = digitsToNat l := by
  rw [padZero, digitsToNat_append, digitsToNat_replicate_zero]
  simp

/-! ### Parsing rendered numerals -/

theorem takeWhile_append_of (p : Char → Bool) (x : Char) (r : List Char)
    (hx : p x = false) : ∀ w : List Char, (∀ c ∈ w, p c = true) →
    (w ++ x :: r).takeWhile p = w := by
  intro w
  induction w with
  | nil =>
    intro _
    rw [List.nil_append, List.takeWhile_cons_of_neg (by rw [hx]; exact Bool.false_ne_true)]
  | cons a w ih =>
    intro h
    rw [List.cons_append, List.takeWhile_cons_of_pos (h a (List.mem_cons_self a w)),
      ih (fun c hc => h c (List.mem_cons_of_mem a hc))]

theorem dropWhile_append_of (p : Char → Bool) (x : Char) (r : List Char)
    (hx : p x = false) : ∀ w : List Char, (∀ c ∈ w, p c = true) →
    (w ++ x :: r).dropWhile p = x :: r := by
  intro w
  induction w with
  | nil =>
    intro _
    rw [List.nil_append, List.dropWhile_cons_of_neg (by rw [hx]; exact Bool.false_ne_true)]
  | cons a w ih =>
    intro h
    rw [List.cons_append, List.dropWhile_cons_of_pos (h a (List.mem_cons_self a w)),
      ih (fun c hc => h c (List.mem_cons_of_mem a hc))]

theorem takeWhile_eq_self_of (p : Char → Bool) : ∀ l : List Char, (∀ c ∈ l, p c = true) →
    l.takeWhile p = l := by
  intro l
  induction l with
  | nil => intro _; rfl
  | cons a w ih =>
    intro h
    rw [List.takeWhile_cons_of_pos (h a (List.mem_cons_self a w)),
      ih (fun c hc => h c (List.mem_cons_of_mem a hc))]

theorem dropWhile_eq_nil_of (p : Char → Bool) : ∀ l : List Char, (∀ c ∈ l, p c = true) →
    l.dropWhile p = [] := by
  intro l
  induction l with
  | nil => intro _; rfl
  | cons a w ih =>
    intro h
    rw [List.dropWhile_cons_of_pos (h a (List.mem_cons_self a w)),
      ih (fun c hc => h c (List.mem_cons_of_mem a hc))]

theorem isDigit_ne_dot {c : Char} (h : c.isDigit = true) : (c != '.') = true := by
  cases hb : c == '.' with
  | true =>
    have hc : c = '.' := eq_of_beq hb
    subst hc
    exact absurd h (by decide)
  | false => simp [bne, hb]

theorem isDigit_not_space {c : Char} (h : c.isDigit = true) : pyIsSpace c = false := by
  cases hb : pyIsSpace c with
  | false => rfl
  | true =>
    simp only [pyIsSpace, Bool.or_eq_true, beq_iff_eq] at hb
    rcases hb with ((((rfl | rfl) | rfl) | rfl) | rfl) | rfl <;> exact absurd h (by decide)

theorem isDigit_keep {c : Char} (h : c.isDigit = true) : keepNumericChar c = true := by
  simp [keepNumericChar, h]

theorem isDigit_ne_minus {c : Char} (h : c.isDigit = true) : (c == '-') = false := by
  cases hb : c == '-' with
  | false => rfl
  | true =>
    have hc : c = '-' := eq_of_beq hb
    subst hc
    exact absurd h (by decide)

theorem parseUnsigned_digits (l : List Char) (hne : l ≠ [])
    (hd : ∀ c ∈ l, c.isDigit = true) :
    parseUnsigned l = Option.some ((digitsToNat l : ℚ)) := by
  have hdot : ∀ c ∈ l, ((c != '.') : Bool) = true := fun c hc => isDigit_ne_dot (hd c hc)
  have ht : l.takeWhile (fun c => c != '.') = l := takeWhile_eq_self_of _ l hdot
  have hdr : l.dropWhile (fun c => c != '.') = [] := dropWhile_eq_nil_of _ l hdot
  have hall : l.all Char.isDigit = true := List.all_eq_true.mpr hd
  simp only [parseUnsigned]
  rw [ht, hdr, if_pos hall]
  simp [hne]

theorem parseUnsigned_frac (d1 d2 : List Char) (h1 : d1 ≠ [])
    (hd1 : ∀ c ∈ d1, c.isDigit = true) (hd2 : ∀ c ∈ d2, c.isDigit = true) :
    parseUnsigned (d1 ++ '.' :: d2) =
      Option.some ((digitsToNat d1 : ℚ) + (digitsToNat d2 : ℚ) / (10 : ℚ) ^ d2.length) := by
  have hdot1 : ∀ c ∈ d1, ((c != '.') : Bool) = true := fun c hc => isDigit_ne_dot (hd1 c hc)
  have ht := takeWhile_append_of (fun c => c != '.') '.' d2 (by decide) d1 hdot1
  have hdr := dropWhile_append_of (fun c => c != '.') '.' d2 (by decide) d1 hdot1
  have hall1 : d1.all Char.isDigit = true := List.all_eq_true.mpr hd1
  have hall2 : d2.all Char.isDigit = true := List.all_eq_true.mpr hd2
  simp only [parseUnsigned]
  rw [ht, hdr, if_pos hall1]
  simp [hall2, fun hand => h1 hand]

theorem parseNumeral_head_digit (a : Char) (t : List Char) (ha : (a == '-') = false) :
    parseNumeral (a :: t) = parseUnsigned (a :: t) := by
  have hne : ¬((a :: t).take 1 = ['-']) := by
    simp only [List.take_succ_cons, List.take_zero]
    intro h
    simp only [List.cons.injEq, and_true] at h
    subst h
    exact absurd ha (by decide)
  rw [parseNumeral, if_neg hne]

theorem parseNumeral_neg_cons (l : List Char) :
    parseNumeral ('-' :: l) = Option.map (fun q => -q) (parseUnsigned l) := by
  rw [parseNumeral, if_pos (by simp)]
  simp

/-! ### Re-cleaning rendered values: integers -/

theorem head?_mem {α : Type} (l : List α) (a : α) (h : l.head? = Option.some a) : a ∈ l := by
  cases l with
  | nil => exact Option.noConfusion h
  | cons b t =>
    have hb : b = a := Option.some.inj h
    subst hb
    exact List.mem_cons_self b t

theorem pyStrip_eq_self_of (l : List Char) (h : ∀ c ∈ l, pyIsSpace c = false) :
    pyStrip l = l := by
  have h1 : l.dropWhile pyIsSpace = l :=
    dropWhile_eq_self_of pyIsSpace l (fun a ha => h a (head?_mem l a ha))
  have h2 : l.reverse.dropWhile pyIsSpace = l.reverse :=
    dropWhile_eq_self_of pyIsSpace l.reverse
      (fun a ha => h a (List.mem_reverse.mp (head?_mem l.reverse a ha)))
  rw [pyStrip, h1, h2, List.reverse_reverse]

theorem reprInt_no_space (n : ℤ) : ∀ c ∈ reprInt n, pyIsSpace c = false := by
  intro c hc
  rw [reprInt] at hc
  split at hc
  · rcases List.mem_cons.mp hc with rfl | hc
    · decide
    · exact isDigit_not_space (natToDigits_digits _ c hc)
  · exact isDigit_not_space (natToDigits_digits _ c hc)

theorem reprInt_keep (n : ℤ) : ∀ c ∈ reprInt n, keepNumericChar c = true := by
  intro c hc
  rw [reprInt] at hc
  split at hc
  · rcases List.mem_cons.mp hc with rfl | hc
    · decide
    · exact isDigit_keep (natToDigits_digits _ c hc)
  · exact isDigit_keep (natToDigits_digits _ c hc)

theorem reprInt_ne_nil (n : ℤ) : reprInt n ≠ [] := by
  rw [reprInt]
  split
  · exact List.cons_ne_nil _ _
  · exact natToDigits_ne_nil _

theorem reprInt_ne_minus (n : ℤ) : reprInt n ≠ ['-'] := by
  rw [reprInt]
  split
  · intro h
    have := List.cons.inj h
    exact natToDigits_ne_nil _ this.2
  · intro h
    have hm : '-' ∈ natToDigits n.natAbs := by
      rw [h]
      exact List.mem_singleton_self '-'
    have := natToDigits_digits _ '-' hm
    exact absurd this (by decide)

theorem parseNumeral_reprInt (n : ℤ) : parseNumeral (reprInt n) = Option.some ((n : ℚ)) := by
  by_cases hn : n < 0
  · rw [reprInt, if_pos hn, parseNumeral_neg_cons,
      parseUnsigned_digits _ (natToDigits_ne_nil _) (natToDigits_digits _),
      digitsToNat_natToDigits]
    show Option.some (-(n.natAbs : ℚ)) = Option.some ((n : ℚ))
    congr 1
    have hz : ((n.natAbs : ℤ)) = -n := by omega
    have h2 : ((n.natAbs : ℚ)) = ((n.natAbs : ℤ) : ℚ) := (Int.cast_natCast _).symm
    have h1 : ((n.natAbs : ℤ) : ℚ) = ((-n : ℤ) : ℚ) := congrArg (fun z : ℤ => (z : ℚ)) hz
    rw [h2, h1]
    push_cast
    ring
  · rw [reprInt, if_neg hn]
    cases hD : natToDigits n.natAbs with
    | nil => exact absurd hD (natToDigits_ne_nil _)
    | cons a t =>
      have ha : (a == '-') = false :=
        isDigit_ne_minus (natToDigits_digits _ a (hD ▸ List.mem_cons_self a t))
      rw [← hD]
      rw [hD, parseNumeral_head_digit a t ha, ← hD,
        parseUnsigned_digits _ (natToDigits_ne_nil _) (natToDigits_digits _),
        digitsToNat_natToDigits]
      have hq : ((n.natAbs : ℚ)) = ((n : ℤ) : ℚ) := by
        have hz : ((n.natAbs : ℤ)) = n := by omega
        have h2 : ((n.natAbs : ℚ)) = ((n.natAbs : ℤ) : ℚ) := (Int.cast_natCast _).symm
        rw [h2, congrArg (fun z : ℤ => (z : ℚ)) hz]
      rw [hq]

theorem clean_value_reprInt (o : PandasOracle) (n : ℤ) (tag : String) (ht : tag ∈ intTags) :
    _clean_value o (Option.some (reprInt n)) tag = (Cell.int n, false) := by
  have hnum := mem_intTags_mem_numericTags ht
  have hs : pyStrip (reprInt n) = reprInt n := pyStrip_eq_self_of _ (reprInt_no_space n)
  have hsne : pyStrip (reprInt n) ≠ [] := by
    rw [hs]
    exact reprInt_ne_nil n
  rw [clean_value_some o tag _ hsne, if_pos hnum, hs]
  have hfil : (reprInt n).filter keepNumericChar = reprInt n :=
    List.filter_eq_self.mpr (reprInt_keep n)
  rw [hfil, if_neg (by
    intro h
    rcases h with h | h
    · exact reprInt_ne_nil n h
    · exact reprInt_ne_minus n h), parseNumeral_reprInt n]
  simp [ht, Rat.den_intCast, Rat.num_intCast]

/-! ### Denominators of parsed values are 10-smooth -/

theorem decExp_spec (d k : Nat) (h : decExp d = Option.some k) : 10 ^ k % d = 0 := by
  rw [decExp] at h
  have := List.find?_some h
  exact eq_of_beq this

theorem dvd_pow_of_prime_dvd (m : Nat) : ∀ d : Nat, 0 < d →
    (∀ p, Nat.Prime p → p ∣ d → p ∣ m) → d ∣ m ^ d := by
  intro d
  induction d using Nat.strong_induction_on with
  | _ d ih =>
    intro hd hp
    by_cases h1 : d = 1
    · subst h1
      exact one_dvd _
    · have hpf : d.minFac.Prime := Nat.minFac_prime h1
      have hdvd : d.minFac ∣ d := Nat.minFac_dvd d
      have hm : d.minFac ∣ m := hp _ hpf hdvd
      have hq : d / d.minFac < d := Nat.div_lt_self hd hpf.one_lt
      have hq0 : 0 < d / d.minFac := Nat.div_pos (Nat.minFac_le hd) hpf.pos
      have hps : ∀ p, Nat.Prime p → p ∣ d / d.minFac → p ∣ m :=
        fun p hpr hpd => hp p hpr (hpd.trans (Nat.div_dvd_of_dvd hdvd))
      have ihq := ih (d / d.minFac) hq hq0 hps
      have hd_eq : d.minFac * (d / d.minFac) = d := Nat.mul_div_cancel' hdvd
      have hstep : d ∣ m * m ^ (d / d.minFac) := by
        have := mul_dvd_mul hm ihq
        rwa [hd_eq] at this
      have hpow : m * m ^ (d / d.minFac) = m ^ (d / d.minFac + 1) := by
        rw [pow_succ, mul_comm]
      rw [hpow] at hstep
      exact hstep.trans (pow_dvd_pow m (by omega))

theorem decExp_isSome_of_dvd (d : Nat) (hd : 0 < d) (j : Nat) (hdvd : d ∣ 10 ^ j) :
    ∃ k, decExp d = Option.some k := by
  have hp : ∀ p, Nat.Prime p → p ∣ d → p ∣ 10 :=
    fun p hpr hpd => hpr.dvd_of_dvd_pow (hpd.trans hdvd)
  have h10 : d ∣ 10 ^ d := dvd_pow_of_prime_dvd 10 d hd hp
  rw [decExp]
  cases hf : (List.range (d + 1)).find? (fun k => 10 ^ k % d == 0) with
  | some k => exact ⟨k, rfl⟩
  | none =>
    exfalso
    have hnone := List.find?_eq_none.mp hf d (List.mem_range.mpr (by omega))
    apply hnone
    have : 10 ^ d % d = 0 := Nat.dvd_iff_mod_eq_zero.mp h10
    simp [this]

theorem den_div_pow_dvd (b : Nat) (k : Nat) :
    (((b : ℚ) / (10 : ℚ) ^ k).den : ℕ) ∣ 10 ^ k := by
  have he : ((b : ℚ) / (10 : ℚ) ^ k) = Rat.divInt (b : ℤ) ((10 ^ k : ℕ) : ℤ) := by
    rw [Rat.divInt_eq_div]
    push_cast
    ring
  rw [he]
  have := Rat.den_dvd (b : ℤ) ((10 ^ k : ℕ) : ℤ)
  exact_mod_cast this

theorem parseUnsigned_den_dvd (l : List Char) (q : ℚ)
    (h : parseUnsigned l = Option.some q) : ∃ j, (q.den : ℕ) ∣ 10 ^ j := by
  cases hfp : l.dropWhile (fun c => c != '.') with
  | nil =>
    simp only [parseUnsigned, hfp] at h
    split at h
    · split at h
      · exact Option.noConfusion h
      · cases h
        exact ⟨0, by simp [Rat.den_natCast]⟩
    · exact Option.noConfusion h
  | cons x frac =>
    simp only [parseUnsigned, hfp] at h
    split at h
    · split at h
      · cases h
        refine ⟨frac.length, ?_⟩
        have h2 := den_div_pow_dvd (digitsToNat frac) frac.length
        have h3 := Rat.add_den_dvd ((digitsToNat (l.takeWhile (fun c => c != '.')) : ℚ))
          ((digitsToNat frac : ℚ) / (10 : ℚ) ^ frac.length)
        rw [Rat.den_natCast, one_mul] at h3
        exact h3.trans h2
      · exact Option.noConfusion h
    · exact Option.noConfusion h

theorem parseNumeral_den_dvd (l : List Char) (q : ℚ)
    (h : parseNumeral l = Option.some q) : ∃ j, (q.den : ℕ) ∣ 10 ^ j := by
  rw [parseNumeral] at h
  split at h
  · cases hu : parseUnsigned (l.drop 1) with
    | none => rw [hu] at h; exact Option.noConfusion h
    | some q0 =>
      rw [hu] at h
      cases h
      obtain ⟨j, hj⟩ := parseUnsigned_den_dvd _ q0 hu
      exact ⟨j, by rwa [Rat.neg_den]⟩
  · exact parseUnsigned_den_dvd l q h

/-! ### Re-cleaning rendered floats -/

theorem padZero_digits (k : Nat) (l : List Char) (h : ∀ c ∈ l, c.isDigit = true) :
    ∀ c ∈ padZero k l, c.isDigit = true := by
  intro c hc
  rcases List.mem_append.mp hc with hc | hc
  · rw [List.eq_of_mem_replicate hc]
    decide
  · exact h c hc

theorem padZero_length (k : Nat) (l : List Char) (h : l.length ≤ k) :
    (padZero k l).length = k := by
  rw [padZero, List.length_append, List.length_replicate]
  omega

theorem parseNumeral_signed (q : ℚ) (body : List Char) (hbne : body ≠ [])
    (hd : ∀ c, body.head? = Option.some c → (c == '-') = false)
    (hp : parseUnsigned body = Option.some ((q.num.natAbs : ℚ) / (q.den : ℚ))) :
    parseNumeral (if q.num < 0 then '-' :: body else body) = Option.some q := by
  have habs : q.num < 0 → ((q.num.natAbs : ℚ)) = ((-q.num : ℤ) : ℚ) := by
    intro hn
    have hz : ((q.num.natAbs : ℤ)) = -q.num := by omega
    rw [(Int.cast_natCast q.num.natAbs).symm, congrArg (fun z : ℤ => (z : ℚ)) hz]
  have habs2 : ¬(q.num < 0) → ((q.num.natAbs : ℚ)) = ((q.num : ℤ) : ℚ) := by
    intro hn
    have hz : ((q.num.natAbs : ℤ)) = q.num := by omega
    rw [(Int.cast_natCast q.num.natAbs).symm, congrArg (fun z : ℤ => (z : ℚ)) hz]
  by_cases hn : q.num < 0
  · rw [if_pos hn, parseNumeral_neg_cons, hp]
    show Option.some (-((q.num.natAbs : ℚ) / (q.den : ℚ))) = Option.some q
    congr 1
    rw [habs hn]
    push_cast
    rw [neg_div, neg_neg]
    exact Rat.num_div_den q
  · cases hb : body with
    | nil => exact absurd hb hbne
    | cons a t =>
      subst hb
      rw [if_neg hn, parseNumeral_head_digit a t (hd a rfl), hp]
      congr 1
      rw [habs2 hn]
      exact Rat.num_div_den q

theorem den_eq_one_of_decExp_zero (q : ℚ) (hk : decExp q.den = Option.some 0) : q.den = 1 := by
  have hs := decExp_spec q.den 0 hk
  simp only [pow_zero] at hs
  exact Nat.dvd_one.mp (Nat.dvd_of_mod_eq_zero hs)

theorem parseNumeral_reprQ (q : ℚ) (k : Nat) (hk : decExp q.den = Option.some k) :
    parseNumeral (reprQ q) = Option.some q := by
  by_cases hk0 : k = 0
  · subst hk0
    have hden : q.den = 1 := den_eq_one_of_decExp_zero q hk
    have hB : reprQ q = (if q.num < 0 then '-' :: (natToDigits q.num.natAbs ++ ['.', '0'])
        else (natToDigits q.num.natAbs ++ ['.', '0'])) := by
      simp only [reprQ, hk, if_true]
    rw [hB]
    refine parseNumeral_signed q _ (by simp [natToDigits_ne_nil]) ?_ ?_
    · intro c hc
      cases hD : natToDigits q.num.natAbs with
      | nil => exact absurd hD (natToDigits_ne_nil _)
      | cons a t =>
        rw [hD, List.cons_append, List.head?_cons] at hc
        have hac : a = c := Option.some.inj hc
        subst hac
        exact isDigit_ne_minus (natToDigits_digits _ a (hD ▸ List.mem_cons_self a t))
    · show parseUnsigned (natToDigits q.num.natAbs ++ '.' :: ['0']) = _
      rw [parseUnsigned_frac (natToDigits q.num.natAbs) ['0'] (natToDigits_ne_nil _)
        (natToDigits_digits _) (by intro c hc; rw [List.mem_singleton] at hc; subst hc; decide)]
      congr 1
      rw [digitsToNat_natToDigits]
      have h0 : digitsToNat ['0'] = 0 := by decide
      rw [h0, hden]
      push_cast
      ring
  · have hkpos : 0 < k := by omega
    have hdvd : q.den ∣ 10 ^ k := Nat.dvd_of_mod_eq_zero (decExp_spec _ _ hk)
    have hpowpos : 0 < 10 ^ k := Nat.pos_pow_of_pos k (by omega)
    have hmden : (q.num.natAbs * (10 ^ k / q.den)) * q.den = q.num.natAbs * 10 ^ k := by
      rw [mul_assoc, Nat.div_mul_cancel hdvd]
    have hB : reprQ q = (if q.num < 0 then
        '-' :: (natToDigits (q.num.natAbs * (10 ^ k / q.den) / 10 ^ k) ++
          '.' :: padZero k (natToDigits (q.num.natAbs * (10 ^ k / q.den) % 10 ^ k)))
        else (natToDigits (q.num.natAbs * (10 ^ k / q.den) / 10 ^ k) ++
          '.' :: padZero k (natToDigits (q.num.natAbs * (10 ^ k / q.den) % 10 ^ k)))) := by
      simp only [reprQ, hk, if_neg hk0]
    rw [hB]
    refine parseNumeral_signed q _ (by simp [natToDigits_ne_nil]) ?_ ?_
    · intro c hc
      cases hD : natToDigits (q.num.natAbs * (10 ^ k / q.den) / 10 ^ k) with
      | nil => exact absurd hD (natToDigits_ne_nil _)
      | cons a t =>
        rw [hD, List.cons_append, List.head?_cons] at hc
        have hac : a = c := Option.some.inj hc
        subst hac
        exact isDigit_ne_minus (natToDigits_digits _ a (hD ▸ List.mem_cons_self a t))
    · rw [parseUnsigned_frac _ _ (natToDigits_ne_nil _) (natToDigits_digits _)
        (padZero_digits k _ (natToDigits_digits _))]
      have hlen : (padZero k (natToDigits (q.num.natAbs * (10 ^ k / q.den) % 10 ^ k))).length
          = k :=
        padZero_length k _ (natToDigits_len_le k _ hkpos (Nat.mod_lt _ hpowpos))
      rw [hlen, digitsToNat_padZero, digitsToNat_natToDigits, digitsToNat_natToDigits]
      congr 1
      have hq10 : ((10 : ℚ)) ^ k ≠ 0 := by positivity
      have hqden : ((q.den : ℚ)) ≠ 0 := by
        have := q.den_pos
        positivity
      set m := q.num.natAbs * (10 ^ k / q.den) with hm
      have hsplit : (m / 10 ^ k) * 10 ^ k + m % 10 ^ k = m := by
        rw [Nat.mul_comm]
        exact Nat.div_add_mod m (10 ^ k)
      have e2 : ((m / 10 ^ k : ℕ) : ℚ) * (10 : ℚ) ^ k + ((m % 10 ^ k : ℕ) : ℚ) = (m : ℚ) := by
        exact_mod_cast hsplit
      have hval : ((m / 10 ^ k : ℕ) : ℚ) + ((m % 10 ^ k : ℕ) : ℚ) / (10 : ℚ) ^ k
          = (m : ℚ) / (10 : ℚ) ^ k := by
        rw [eq_div_iff hq10, add_mul, div_mul_cancel₀ _ hq10]
        exact e2
      rw [hval, div_eq_div_iff hq10 hqden]
      exact_mod_cast hmden

theorem reprQ_mem (q : ℚ) (k : Nat) (hk : decExp q.den = Option.some k) :
    ∀ c ∈ reprQ q, c.isDigit = true ∨ c = '.' ∨ c = '-' := by
  intro c hc
  by_cases hk0 : k = 0
  · subst hk0
    have hB : reprQ q = (if q.num < 0 then '-' :: (natToDigits q.num.natAbs ++ ['.', '0'])
        else (natToDigits q.num.natAbs ++ ['.', '0'])) := by
      simp only [reprQ, hk, if_true]
    rw [hB] at hc
    split at hc
    · rcases List.mem_cons.mp hc with rfl | hc
      · exact Or.inr (Or.inr rfl)
      · rcases List.mem_append.mp hc with hc | hc
        · exact Or.inl (natToDigits_digits _ c hc)
        · rcases List.mem_cons.mp hc with rfl | hc
          · exact Or.inr (Or.inl rfl)
          · rw [List.mem_singleton] at hc
            subst hc
            exact Or.inl (by decide)
    · rcases List.mem_append.mp hc with hc | hc
      · exact Or.inl (natToDigits_digits _ c hc)
      · rcases List.mem_cons.mp hc with rfl | hc
        · exact Or.inr (Or.inl rfl)
        · rw [List.mem_singleton] at hc
          subst hc
          exact Or.inl (by decide)
  · have hB : reprQ q = (if q.num < 0 then
        '-' :: (natToDigits (q.num.natAbs * (10 ^ k / q.den) / 10 ^ k) ++
          '.' :: padZero k (natToDigits (q.num.natAbs * (10 ^ k / q.den) % 10 ^ k)))
        else (natToDigits (q.num.natAbs * (10 ^ k / q.den) / 10 ^ k) ++
          '.' :: padZero k (natToDigits (q.num.natAbs * (10 ^ k / q.den) % 10 ^ k)))) := by
      simp only [reprQ, hk, if_neg hk0]
    rw [hB] at hc
    have hbody : ∀ c2 ∈ (natToDigits (q.num.natAbs * (10 ^ k / q.den) / 10 ^ k) ++
        '.' :: padZero k (natToDigits (q.num.natAbs * (10 ^ k / q.den) % 10 ^ k))),
        c2.isDigit = true ∨ c2 = '.' ∨ c2 = '-' := by
      intro c2 hc2
      rcases List.mem_append.mp hc2 with hc2 | hc2
      · exact Or.inl (natToDigits_digits _ c2 hc2)
      · rcases List.mem_cons.mp hc2 with rfl | hc2
        · exact Or.inr (Or.inl rfl)
        · exact Or.inl (padZero_digits k _ (natToDigits_digits _) c2 hc2)
    split at hc
    · rcases List.mem_cons.mp hc with rfl | hc
      · exact Or.inr (Or.inr rfl)
      · exact hbody c hc
    · exact hbody c hc

theorem reprQ_dot_mem (q : ℚ) (k : Nat) (hk : decExp q.den = Option.some k) :
    '.' ∈ reprQ q := by
  by_cases hk0 : k = 0
  · subst hk0
    have hB : reprQ q = (if q.num < 0 then '-' :: (natToDigits q.num.natAbs ++ ['.', '0'])
        else (natToDigits q.num.natAbs ++ ['.', '0'])) := by
      simp only [reprQ, hk, if_true]
    rw [hB]
    split <;> simp
  · have hB : reprQ q = (if q.num < 0 then
        '-' :: (natToDigits (q.num.natAbs * (10 ^ k / q.den) / 10 ^ k) ++
          '.' :: padZero k (natToDigits (q.num.natAbs * (10 ^ k / q.den) % 10 ^ k)))
        else (natToDigits (q.num.natAbs * (10 ^ k / q.den) / 10 ^ k) ++
          '.' :: padZero k (natToDigits (q.num.natAbs * (10 ^ k / q.den) % 10 ^ k)))) := by
      simp only [reprQ, hk, if_neg hk0]
    rw [hB]
    split <;> simp

theorem clean_value_reprQ (o : PandasOracle) (q : ℚ) (tag : String) (k : Nat)
    (ht : tag ∈ numericTags) (hti : tag ∉ intTags) (hk : decExp q.den = Option.some k) :
    _clean_value o (Option.some (reprQ q)) tag = (Cell.float q, false) := by
  have hmem := reprQ_mem q k hk
  have hnos : ∀ c ∈ reprQ q, pyIsSpace c = false := by
    intro c hc
    rcases hmem c hc with h | rfl | rfl
    · exact isDigit_not_space h
    · decide
    · decide
  have hkeep : ∀ c ∈ reprQ q, keepNumericChar c = true := by
    intro c hc
    rcases hmem c hc with h | rfl | rfl
    · exact isDigit_keep h
    · decide
    · decide
  have hdot : '.' ∈ reprQ q := reprQ_dot_mem q k hk
  have hs : pyStrip (reprQ q) = reprQ q := pyStrip_eq_self_of _ hnos
  have hsne : pyStrip (reprQ q) ≠ [] := by
    rw [hs]
    intro h
    rw [h] at hdot
    exact absurd hdot (List.not_mem_nil '.')
  rw [clean_value_some o tag _ hsne, if_pos ht, hs, List.filter_eq_self.mpr hkeep]
  rw [if_neg (by
    intro h
    rcases h with h | h
    · rw [h] at hdot
      exact absurd hdot (List.not_mem_nil '.')
    · rw [h, List.mem_singleton] at hdot
      exact absurd hdot (by decide))]
  rw [parseNumeral_reprQ q k hk]
  simp [hti]

/-! ### Re-cleaning whole finalized columns -/

theorem mem_floatTags_not_int {t : String} (h : t ∈ floatTags) : t ∉ intTags := by
  simp only [floatTags, List.mem_cons, List.not_mem_nil, or_false] at h
  rcases h with rfl | rfl <;> decide

theorem mem_numericTags_int_or_float {t : String} (h : t ∈ numericTags) :
    t ∈ intTags ∨ t ∈ floatTags := by
  simp only [numericTags, List.mem_cons, List.not_mem_nil, or_false] at h
  rcases h with rfl | rfl | rfl | rfl
  · exact Or.inl (by decide)
  · exact Or.inl (by decide)
  · exact Or.inr (by decide)
  · exact Or.inr (by decide)

/-- Under a float target the per-cell cleaner yields missing or a float whose
denominator has a decimal exponent. -/
theorem clean_value_float_shape (o : PandasOracle) (x : Option (List Char)) (tag : String)
    (htf : tag ∈ floatTags) :
    (_clean_value o x tag).1 = Cell.none ∨
    ∃ q k, (_clean_value o x tag).1 = Cell.float q ∧ decExp q.den = Option.some k := by
  have hnum := mem_floatTags_mem_numericTags htf
  have hti : tag ∉ intTags := mem_floatTags_not_int htf
  cases x with
  | none => exact Or.inl rfl
  | some v =>
    by_cases hv : pyStrip v = []
    · rw [clean_value_strip_nil o tag v hv]
      exact Or.inl rfl
    · rw [clean_value_some o tag v hv, if_pos hnum]
      by_cases hc : (pyStrip v).filter keepNumericChar = [] ∨
          (pyStrip v).filter keepNumericChar = ['-']
      · rw [if_pos hc]
        exact Or.inl rfl
      · rw [if_neg hc]
        cases hp : parseNumeral ((pyStrip v).filter keepNumericChar) with
        | none => exact Or.inl rfl
        | some q =>
          simp only [if_neg hti]
          obtain ⟨j, hj⟩ := parseNumeral_den_dvd _ q hp
          obtain ⟨k, hk⟩ := decExp_isSome_of_dvd q.den q.den_pos j hj
          exact Or.inr ⟨q, k, rfl, hk⟩

theorem finalizeFloatCol_float_shape (o : PandasOracle) (raw : List (Option (List Char)))
    (tag : String) (htf : tag ∈ floatTags) :
    ∀ b ∈ finalizeFloatCol (raw.map (fun x => (_clean_value o x tag).1)),
      b = Cell.none ∨ ∃ q k, b = Cell.float q ∧ decExp q.den = Option.some k := by
  intro b hb
  rw [finalizeFloatCol, List.mem_map] at hb
  obtain ⟨a, ha, rfl⟩ := hb
  rw [List.mem_map] at ha
  obtain ⟨x, _, rfl⟩ := ha
  rcases clean_value_float_shape o x tag htf with h | ⟨q, k, h, hk⟩
  · rw [h]
    exact Or.inl rfl
  · rw [h]
    exact Or.inr ⟨q, k, rfl, hk⟩

theorem finalizeStrCol_str_shape (o : PandasOracle) (raw : List (Option (List Char)))
    (tag : String) (hts : tag ∈ strTags) :
    ∀ b ∈ finalizeStrCol (raw.map (fun x => (_clean_value o x tag).1)),
      b = Cell.none ∨ ∃ s, b = Cell.str s ∧ s ≠ [] ∧ pyStrip s = s := by
  intro b hb
  rw [finalizeStrCol, List.mem_map] at hb
  obtain ⟨a, ha, rfl⟩ := hb
  rw [List.mem_map] at ha
  obtain ⟨x, _, rfl⟩ := ha
  rcases clean_value_str_shape o x tag hts with h | ⟨s, h, hne, hself, _⟩
  · rw [h]
    exact Or.inl rfl
  · rw [h]
    exact Or.inr ⟨s, rfl, hne, hself.symm⟩

theorem clean_value_str_self (o : PandasOracle) (s : List Char) (tag : String)
    (hts : tag ∈ strTags) (hne : s ≠ []) (hself : pyStrip s = s) :
    _clean_value o (Option.some s) tag = (Cell.str s, false) := by
  have hsne : pyStrip s ≠ [] := by
    rw [hself]
    exact hne
  rw [clean_value_some o tag s hsne, if_neg (strTags_not_numeric hts), if_pos hts, hself]

theorem reclean_map_int (o2 : PandasOracle) (out : List Cell) (tag : String)
    (ht : tag ∈ intTags) (hshape : ∀ b ∈ out, b = Cell.none ∨ ∃ n, b = Cell.int n) :
    (out.map cellToText).map (fun x => (_clean_value o2 x tag).1) = out := by
  rw [List.map_map]
  have hpt : ∀ b ∈ out, ((fun x => (_clean_value o2 x tag).1) ∘ cellToText) b = id b := by
    intro b hb
    rcases hshape b hb with rfl | ⟨n, rfl⟩
    · rfl
    · show (_clean_value o2 (Option.some (reprInt n)) tag).1 = Cell.int n
      rw [clean_value_reprInt o2 n tag ht]
  rw [List.map_congr_left hpt, List.map_id]

theorem reclean_map_float (o2 : PandasOracle) (out : List Cell) (tag : String)
    (htn : tag ∈ numericTags) (hti : tag ∉ intTags)
    (hshape : ∀ b ∈ out, b = Cell.none ∨ ∃ q k, b = Cell.float q ∧
      decExp q.den = Option.some k) :
    (out.map cellToText).map (fun x => (_clean_value o2 x tag).1) = out := by
  rw [List.map_map]
  have hpt : ∀ b ∈ out, ((fun x => (_clean_value o2 x tag).1) ∘ cellToText) b = id b := by
    intro b hb
    rcases hshape b hb with rfl | ⟨q, k, rfl, hk⟩
    · rfl
    · show (_clean_value o2 (Option.some (reprQ q)) tag).1 = Cell.float q
      rw [clean_value_reprQ o2 q tag k htn hti hk]
  rw [List.map_congr_left hpt, List.map_id]

theorem reclean_map_str (o2 : PandasOracle) (out : List Cell) (tag : String)
    (hts : tag ∈ strTags)
    (hshape : ∀ b ∈ out, b = Cell.none ∨ ∃ s, b = Cell.str s ∧ s ≠ [] ∧ pyStrip s = s) :
    (out.map cellToText).map (fun x => (_clean_value o2 x tag).1) = out := by
  rw [List.map_map]
  have hpt : ∀ b ∈ out, ((fun x => (_clean_value o2 x tag).1) ∘ cellToText) b = id b := by
    intro b hb
    rcases hshape b hb with rfl | ⟨s, rfl, hne, hself⟩
    · rfl
    · show (_clean_value o2 (Option.some s) tag).1 = Cell.str s
      rw [clean_value_str_self o2 s tag hts hne hself]
  rw [List.map_congr_left hpt, List.map_id]

theorem finalizeIntCol_id (cells : List Cell)
    (h : ∀ b ∈ cells, b = Cell.none ∨ ∃ n, b = Cell.int n) :
    finalizeIntCol cells = Except.ok cells := by
  have h1 : cells.map toNumericCoerce = cells := by
    have hpt : ∀ b ∈ cells, toNumericCoerce b = id b := by
      intro b hb
      rcases h b hb with rfl | ⟨n, rfl⟩ <;> rfl
    rw [List.map_congr_left hpt, List.map_id]
  have hany : cells.any isFracFloat = false := by
    rw [List.any_eq_false]
    intro b hb
    rcases h b hb with rfl | ⟨n, rfl⟩ <;> simp [isFracFloat]
  simp only [finalizeIntCol, h1, hany]
  have h2 : cells.map (fun c => match c with | Cell.float q => Cell.int q.num | c => c)
      = cells := by
    have hpt : ∀ b ∈ cells,
        (fun c => match c with | Cell.float q => Cell.int q.num | c => c) b = id b := by
      intro b hb
      rcases h b hb with rfl | ⟨n, rfl⟩ <;> rfl
    rw [List.map_congr_left hpt, List.map_id]
  rw [h2, if_neg (by simp)]

theorem finalizeFloatCol_id (cells : List Cell)
    (h : ∀ b ∈ cells, b = Cell.none ∨ ∃ q, b = Cell.float q) :
    finalizeFloatCol cells = cells := by
  rw [finalizeFloatCol]
  have hpt : ∀ b ∈ cells,
      (fun c => match toNumericCoerce c with | Cell.int n => Cell.float (n : ℚ) | c => c) b
        = id b := by
    intro b hb
    rcases h b hb with rfl | ⟨q, rfl⟩ <;> rfl
  rw [List.map_congr_left hpt, List.map_id]

theorem finalizeStrCol_id (cells : List Cell)
    (h : ∀ b ∈ cells, b = Cell.none ∨ ∃ s, b = Cell.str s) :
    finalizeStrCol cells = cells := by
  rw [finalizeStrCol]
  have hpt : ∀ b ∈ cells, astypeStringCell b = id b := by
    intro b hb
    rcases h b hb with rfl | ⟨s, rfl⟩ <;> rfl
  rw [List.map_congr_left hpt, List.map_id]

theorem colTarget_ne_empty (d : List (String × String)) (n : String) (t : String)
    (h : colTarget d n = Option.some t) : t ≠ "" := by
  cases hl : d.lookup n with
  | none =>
    simp only [colTarget, hl] at h
    exact Option.noConfusion h
  | some u =>
    simp only [colTarget, hl] at h
    by_cases hu : u = ""
    · rw [if_pos hu] at h
      exact Option.noConfusion h
    · rw [if_neg hu] at h
      cases h
      exact hu

/-- Re-cleaning one finalized column with its finalized tag reproduces it,
provided the original tag was in the int/float/string families (or absent)
and, for an unspecified column, no cell is the empty string. -/
theorem cleanColumn_reclean (o o2 : PandasOracle) (dtypes dspec : List (String × String))
    (name : String) (raw : List (Option (List Char))) (c : List Cell)
    (hok : cleanColumn o dtypes name raw = Except.ok c)
    (hfam : tagFamilyOk dtypes name = true)
    (hnoe : noEmptyStrCell dtypes (name, c) = true)
    (hspec : colTarget dspec name = Option.some ((colTarget dtypes name).getD "string")) :
    cleanColumn o2 dspec name (c.map cellToText) = Except.ok c := by
  cases hct : colTarget dtypes name with
  | none =>
    simp only [cleanColumn, hct] at hok
    cases hok
    simp only [noEmptyStrCell, hct] at hnoe
    have hne : Cell.str [] ∉ raw.map stripOnlyCell := of_decide_eq_true hnoe
    rw [hct] at hspec
    simp only [Option.getD_none] at hspec
    simp only [cleanColumn, hspec]
    rw [if_neg (by decide), if_neg (by decide), if_pos (by decide)]
    have hshape : ∀ b ∈ raw.map stripOnlyCell,
        b = Cell.none ∨ ∃ s, b = Cell.str s ∧ s ≠ [] ∧ pyStrip s = s := by
      intro b hb
      rw [List.mem_map] at hb
      obtain ⟨x, hx, rfl⟩ := hb
      cases x with
      | none => exact Or.inl rfl
      | some v =>
        refine Or.inr ⟨pyStrip v, rfl, ?_, pyStrip_idem v⟩
        intro hnil
        apply hne
        refine List.mem_map.mpr ⟨Option.some v, hx, ?_⟩
        show Cell.str (pyStrip v) = Cell.str []
        rw [hnil]
    rw [reclean_map_str o2 _ "string" (by decide) hshape,
      finalizeStrCol_id _ (fun b hb => by
        rcases hshape b hb with h | ⟨s, hs, _, _⟩
        · exact Or.inl h
        · exact Or.inr ⟨s, hs⟩)]
  | some tag =>
    simp only [cleanColumn, hct] at hok
    simp only [tagFamilyOk, hct] at hfam
    have hmem : tag ∈ numericTags ∨ tag ∈ strTags := of_decide_eq_true hfam
    rw [hct] at hspec
    simp only [Option.getD_some] at hspec
    by_cases hti : tag ∈ intTags
    · rw [if_pos hti] at hok
      have hshape := finalizeIntCol_shape _ _ hok
      simp only [cleanColumn, hspec]
      rw [if_pos hti, reclean_map_int o2 c tag hti hshape, finalizeIntCol_id c hshape]
    · by_cases htf : tag ∈ floatTags
      · rw [if_neg hti, if_pos htf] at hok
        cases hok
        have hshape := finalizeFloatCol_float_shape o raw tag htf
        simp only [cleanColumn, hspec]
        rw [if_neg hti, if_pos htf,
          reclean_map_float o2 _ tag (mem_floatTags_mem_numericTags htf) hti hshape,
          finalizeFloatCol_id _ (fun b hb => by
            rcases hshape b hb with h | ⟨q, k, hq, _⟩
            · exact Or.inl h
            · exact Or.inr ⟨q, hq⟩)]
      · by_cases hts : tag ∈ strTags
        · rw [if_neg hti, if_neg htf, if_pos hts] at hok
          cases hok
          have hshape := finalizeStrCol_str_shape o raw tag hts
          simp only [cleanColumn, hspec]
          rw [if_neg hti, if_neg htf, if_pos hts,
            reclean_map_str o2 _ tag hts hshape,
            finalizeStrCol_id _ (fun b hb => by
              rcases hshape b hb with h | ⟨s, hs, _, _⟩
              · exact Or.inl h
              · exact Or.inr ⟨s, hs⟩)]
        · exfalso
          rcases hmem with hmn | hms
          · rcases mem_numericTags_int_or_float hmn with h | h
            · exact hti h
            · exact htf h
          · exact hts hms

theorem colTarget_cons_ne (k : String) (v : String) (rest : List (String × String))
    (n : String) (h : n ≠ k) : colTarget ((k, v) :: rest) n = colTarget rest n := by
  simp only [colTarget, List.lookup, beq_eq_false_iff_ne.mpr h]

theorem colTarget_finalizedSpec (dtypes : List (String × String)) :
    ∀ (names : List String) (name : String), name ∈ names →
      colTarget (finalizedSpec dtypes names) name =
        Option.some ((colTarget dtypes name).getD "string") := by
  intro names
  induction names with
  | nil => intro name h; exact absurd h (List.not_mem_nil name)
  | cons m ms ih =>
    intro name h
    rw [finalizedSpec, List.map_cons]
    by_cases hm : name = m
    · subst hm
      have hne : ((colTarget dtypes name).getD "string") ≠ "" := by
        cases hc : colTarget dtypes name with
        | none => simp
        | some t => simpa using colTarget_ne_empty dtypes name t hc
      generalize hv : (colTarget dtypes name).getD "string" = v at hne ⊢
      simp only [colTarget, List.lookup, beq_self_eq_true]
      rw [if_neg hne]
    · have hms : name ∈ ms := by
        rcases List.mem_cons.mp h with h' | h'
        · exact absurd h' hm
        · exact h'
      rw [colTarget_cons_ne m _ _ name hm]
      exact ih name hms

theorem cleanColumns_reclean (o o2 : PandasOracle) (dtypes dspec : List (String × String))
    (cols : List (String × List (Option (List Char)))) (cs : List (String × List Cell))
    (hf : List.Forall₂ (fun p pc => pc.1 = p.1 ∧ cleanColumn o dtypes p.1 p.2 = Except.ok pc.2)
      cols cs)
    (hfam : ∀ p ∈ cols, tagFamilyOk dtypes p.1 = true)
    (hnoe : ∀ pc ∈ cs, noEmptyStrCell dtypes pc = true)
    (hspec : ∀ p ∈ cols, colTarget dspec p.1 = Option.some ((colTarget dtypes p.1).getD "string")) :
    cleanColumns o2 dspec (reExpressCols cs) = Except.ok cs := by
  induction hf with
  | nil => rfl
  | @cons p pc cols' cs' hpq hrest ih =>
    rw [reExpressCols, List.map_cons]
    rw [cleanColumns]
    have hnoe1 : noEmptyStrCell dtypes (p.1, pc.2) = true := by
      have := hnoe pc (List.mem_cons_self pc cs')
      have he : pc = (pc.1, pc.2) := rfl
      rw [he, hpq.1] at this
      exact this
    have hcol : cleanColumn o2 dspec pc.1 (pc.2.map cellToText) = Except.ok pc.2 := by
      rw [hpq.1]
      exact cleanColumn_reclean o o2 dtypes dspec p.1 p.2 pc.2 hpq.2
        (hfam p (List.mem_cons_self p cols')) hnoe1
        (hspec p (List.mem_cons_self p cols'))
    rw [hcol]
    have hrec : cleanColumns o2 dspec (reExpressCols cs') = Except.ok cs' :=
      ih (fun q hq => hfam q (List.mem_cons_of_mem p hq))
        (fun q hq => hnoe q (List.mem_cons_of_mem pc hq))
        (fun q hq => hspec q (List.mem_cons_of_mem p hq))
    rw [show reExpressCols cs' = cs'.map (fun p => (p.1, p.2.map cellToText)) from rfl] at hrec
    rw [hrec]

/-- C7 (amended): re-running the cleaner on its own already-cleaned output
(each cleaned value re-expressed as text, every column given its finalized
type as target, and any oracle for the external conversions) reproduces the
cleaned values exactly — provided every specified column's target is in the
int/float/string families and no unspecified column produced an empty-string
cell.  (A whitespace-only cell of an unspecified column breaks this: it first
cleans to the empty string and on the second run becomes missing.) -/
theorem C7_reclean_idempotent (o o2 : PandasOracle) (t : RawTable)
    (dtypes : List (String × String)) (cs : List (String × List Cell))
    (hfam : t.cols.all (fun p => tagFamilyOk dtypes p.1) = true)
    (hok : cleanColumns o dtypes t.cols = Except.ok cs)
    (hnoe : cs.all (noEmptyStrCell dtypes) = true) :
    cleanColumns o2 (finalizedSpec dtypes (t.cols.map Prod.fst)) (reExpressCols cs) =
      Except.ok cs := by
  have hf := cleanColumns_ok o dtypes t.cols cs hok
  refine cleanColumns_reclean o o2 dtypes _ t.cols cs hf ?_ ?_ ?_
  · intro p hp
    exact List.all_eq_true.mp hfam p hp
  · intro pc hpc
    exact List.all_eq_true.mp hnoe pc hpc
  · intro p hp
    exact colTarget_finalizedSpec dtypes _ p.1 (List.mem_map_of_mem Prod.fst hp)

/-- Counterexample to C7 as stated: a whitespace-only cell in a column absent
from the type specification cleans to the empty string, and re-running the
cleaner on that output (with the column's finalized type "string" as target)
turns it into missing — the values differ between the two runs. -/
theorem C7_counterexample :
    cleanColumns trivOracle [] [("a", [Option.some [' ', ' ', ' ']])] =
      Except.ok [("a", [Cell.str []])] ∧
    cleanColumns trivOracle (finalizedSpec [] ["a"]) (reExpressCols [("a", [Cell.str []])]) =
      Except.ok [("a", [Cell.none])] ∧
    Cell.none ≠ Cell.str [] := by
  refine ⟨by with_unfolding_all rfl, by with_unfolding_all rfl, by decide⟩

/-- Witness for C7 (amended): a table with int, float, string and unspecified
columns cleans once, and re-cleaning the re-expressed output with the
finalized tags reproduces it exactly. -/
theorem C7_reclean_idempotent_witness :
    cleanColumns trivOracle
        (finalizedSpec [("a", "int"), ("b", "float"), ("c", "str")]
          ((RawTable.mk [("a", [Option.some ['7'], Option.some [' ', '-', '1', '0', ' ']]),
                  ("b", [Option.some ['1', ',', '5'], Option.some ['-', '0', '.', '2', '5']]),
                  ("c", [Option.some [' ', 'h', 'i', ' '], Option.none]),
                  ("d", [Option.some ['x'], Option.some ['1', '0']])]).cols.map Prod.fst))
        (reExpressCols [("a", [Cell.int 7, Cell.int (-10)]),
                        ("b", [Cell.float (15 : ℚ), Cell.float (-0.25 : ℚ)]),
                        ("c", [Cell.str ['h', 'i'], Cell.none]),
                        ("d", [Cell.str ['x'], Cell.str ['1', '0']])]) =
      Except.ok [("a", [Cell.int 7, Cell.int (-10)]),
                 ("b", [Cell.float (15 : ℚ), Cell.float (-0.25 : ℚ)]),
                 ("c", [Cell.str ['h', 'i'], Cell.none]),
                 ("d", [Cell.str ['x'], Cell.str ['1', '0']])] :=
  C7_reclean_idempotent trivOracle trivOracle
    (RawTable.mk [("a", [Option.some ['7'], Option.some [' ', '-', '1', '0', ' ']]),
                  ("b", [Option.some ['1', ',', '5'], Option.some ['-', '0', '.', '2', '5']]),
                  ("c", [Option.some [' ', 'h', 'i', ' '], Option.none]),
                  ("d", [Option.some ['x'], Option.some ['1', '0']])])
    [("a", "int"), ("b", "float"), ("c", "str")]
    [("a", [Cell.int 7, Cell.int (-10)]),
     ("b", [Cell.float (15 : ℚ), Cell.float (-0.25 : ℚ)]),
     ("c", [Cell.str ['h', 'i'], Cell.none]),
     ("d", [Cell.str ['x'], Cell.str ['1', '0']])]
    (by decide) (by with_unfolding_all rfl) (by decide)
